import Mathlib

/-!
# Verification of the BITS packet decoder (2021 day 16)

Shallow embedding of `src/2021/day16/src/main.rs`.

The byte buffer is a `List Nat` (each entry models a `u8`; all operations only
use the low 8 bits of an entry).  The bit cursor is an explicit position (a
`Nat` bit index) threaded through the functions.  Machine integers are modelled
as `Nat` with explicit reductions: `u16` results of `read_bits` wrap modulo
`2 ^ 16` exactly where the Rust `<<=` on `u16` discards high bits, and `usize`
accumulators wrap modulo `2 ^ 64` where the Rust release-build arithmetic
wraps.

The two recursive decoders (`part1::read_packet` and `part2::evaluate`) are
embedded as fuel-indexed step functions (`p1run`, `p2run`) with an explicit
call descriptor for each recursion site of the Rust source (the packet body,
the length-delimited child loop, and the count-delimited child loop).  `none`
models fuel exhaustion only; it is proved unreachable for the fuel bound used
by the public entry points (`part1`, `part2`), which gives termination.
Rust panics (`unwrap` on an empty operand list, out-of-bounds slice indexing in
the comparison operators) are modelled by the explicit outcome `P2Res.panicked`.
A `Result::Err` early return (the `?` operator) is modelled by the `liftE`
combinator.
-/

/-- Modulus of the Rust `u16` type. -/
def U16 : Nat := 65536

/-- Modulus of the Rust `usize` type (the source targets a 64-bit machine). -/
def U64 : Nat := 18446744073709551616

/-- Errors of the decoder, mirroring `enum Error` in the source. -/
inductive Error where
  /-- Indicates an incorrect amount of bits was specified for reading. -/
  | InvalidBitCount (n : Nat)
  /-- Indicates the end-of-file was encountered. -/
  | Eof
  /-- Indicates a packet had an invalid type ID. -/
  | InvalidTypeId (id : Nat)
deriving DecidableEq

/-- Loop body of `BitReader::read_bits`.  The Rust `while count > 0` loop
consumes at least one bit per iteration, so running it with `count` as fuel is
exact; the fuel-exhaustion arm is unreachable for `fuel ≥ count`.  Returns the
accumulated `u16` result and the new bit position. -/
def readBitsLoop (data : List Nat) : Nat → Nat → Nat → Nat → Nat × Nat
  | 0, position, _, result => (result, position)
  | fuel + 1, position, count, result =>
    if count = 0 then (result, position)
    else
      let byte_index := position / 8
      let bit_index := position % 8
      let chunk_width := min (8 - bit_index) count
      let chunk_mask := 2 ^ chunk_width - 1
      let shift_count := 8 - bit_index - chunk_width
      let bits := (data.getD byte_index 0 >>> shift_count) &&& chunk_mask
      readBitsLoop data fuel (position + chunk_width) (count - chunk_width)
        (((result <<< chunk_width) % U16) ||| bits)

/-- Embedding of `BitReader::read_bits`: consumes `count` bits starting at bit
index `position`; on success returns the value and the advanced position.  An
error leaves the position unchanged (the caller keeps its old position, exactly
as the Rust early returns fire before `self.position` is mutated). -/
def read_bits (data : List Nat) (position count : Nat) : Except Error (Nat × Nat) :=
  if count > 16 then .error (.InvalidBitCount count)
  else if position + count > 8 * data.length then .error .Eof
  else .ok (readBitsLoop data count position count 0)

/-- Loop body of `BitReader::read_compressed_literal`, with fuel.  Each
iteration reads a 5-bit group (low 4 bits are payload, bit 4 is the
continuation flag); the accumulator shifts by 4 like the Rust `usize`
(wrapping modulo `2 ^ 64`).  `none` models fuel exhaustion only. -/
def readLiteralF (data : List Nat) : Nat → Nat → Nat → Option (Except Error (Nat × Nat))
  | 0, _, _ => none
  | fuel + 1, position, result =>
    match read_bits data position 5 with
    | .error e => some (.error e)
    | .ok (chunk, position1) =>
      let result1 := ((result <<< 4) % U64) ||| (chunk &&& 15)
      if chunk &&& 16 = 0 then some (.ok (result1, position1))
      else readLiteralF data fuel position1 result1

/-- Fuel bound for the literal loop: each iteration consumes 5 bits of the
buffer, so `8 * data.length + 2` iterations can never be reached. -/
def litFuel (data : List Nat) : Nat := 8 * data.length + 2

/-- Embedding of `BitReader::read_compressed_literal`.  The default arm is
unreachable (`readLiteralF_suff` below): the fuel bound always suffices. -/
def read_compressed_literal (data : List Nat) (position : Nat) : Except Error (Nat × Nat) :=
  (readLiteralF data (litFuel data) position 0).getD (.error .Eof)

/-- Type id of a sum packet. -/
def TYPE_ID_SUM : Nat := 0
/-- Type id of a product packet. -/
def TYPE_ID_PRODUCT : Nat := 1
/-- Type id of a minimum packet. -/
def TYPE_ID_MIN : Nat := 2
/-- Type id of a maximum packet. -/
def TYPE_ID_MAX : Nat := 3
/-- Type id of a literal packet. -/
def TYPE_ID_LITERAL : Nat := 4
/-- Type id of a greater-than packet. -/
def TYPE_ID_GT : Nat := 5
/-- Type id of a less-than packet. -/
def TYPE_ID_LT : Nat := 6
/-- Type id of an equal-to packet. -/
def TYPE_ID_EQ : Nat := 7

/-- Length-type id selecting the length-in-bits delimiting scheme. -/
def LENGTH_TYPE_ID_BIT_COUNT : Nat := 0
/-- Length-type id selecting the count-of-subpackets delimiting scheme. -/
def LENGTH_TYPE_ID_PACKET_COUNT : Nat := 1

/-- Combinator modelling the Rust `?` operator on a `Result` inside the
fueled decoders: an `Err` is returned to the caller immediately. -/
def liftE {α β : Type} (x : Except Error α) (f : α → Option (Except Error β)) :
    Option (Except Error β) :=
  match x with
  | .error e => some (.error e)
  | .ok a => f a

/-- Propagation of the result of a recursive `read_packet` call in `part1`:
fuel exhaustion and errors propagate, a success is consumed. -/
def bind1 (x : Option (Except Error (Nat × Nat)))
    (f : Nat → Nat → Option (Except Error (Nat × Nat))) :
    Option (Except Error (Nat × Nat)) :=
  match x with
  | none => none
  | some (.error e) => some (.error e)
  | some (.ok (v, q)) => f v q

/-- Call descriptors for the recursion sites of `part1::read_packet`:
`packet` is an invocation of `read_packet`, `loopBits` is the
`while reader.position < end_index` child loop (carrying the running version
accumulator), `loopCount` is the `for _ in 0..operand_count` child loop. -/
inductive P1Call where
  | packet (pos : Nat)
  | loopBits (pos endIdx acc : Nat)
  | loopCount (pos n acc : Nat)

/-- Fueled embedding of `part1::read_packet`.  A `some (.ok (v, q))` result is
the returned version sum `v` together with the reader position `q` after the
packet; `none` is fuel exhaustion (proved unreachable for `decodeFuel`). -/
def p1run (data : List Nat) : Nat → P1Call → Option (Except Error (Nat × Nat))
  | 0, _ => none
  | fuel + 1, .packet pos =>
    liftE (read_bits data pos 3) fun (version, pos1) =>
    liftE (read_bits data pos1 3) fun (type_id, pos2) =>
    if type_id = TYPE_ID_LITERAL then
      liftE (read_compressed_literal data pos2) fun (_literal, pos3) =>
      some (.ok (version, pos3))
    else
      liftE (read_bits data pos2 1) fun (length_type_id, pos3) =>
      if length_type_id = LENGTH_TYPE_ID_BIT_COUNT then
        liftE (read_bits data pos3 15) fun (total_bit_length, pos4) =>
        p1run data fuel (.loopBits pos4 (pos4 + total_bit_length) version)
      else
        liftE (read_bits data pos3 11) fun (operand_count, pos4) =>
        p1run data fuel (.loopCount pos4 operand_count version)
  | fuel + 1, .loopBits pos endIdx acc =>
    if pos < endIdx then
      bind1 (p1run data fuel (.packet pos)) fun v q =>
        p1run data fuel (.loopBits q endIdx ((acc + v) % U64))
    else some (.ok (acc, pos))
  | fuel + 1, .loopCount pos n acc =>
    match n with
    | 0 => some (.ok (acc, pos))
    | m + 1 =>
      bind1 (p1run data fuel (.packet pos)) fun v q =>
        p1run data fuel (.loopCount q m ((acc + v) % U64))

/-- Fuel bound for the decoders: strictly larger than the measure
`2 * (8 * data.length + 1) + 1` that bounds every reachable call. -/
def decodeFuel (data : List Nat) : Nat := 2 * (8 * data.length + 1) + 2

/-- Embedding of `part1`: decode one root packet at bit offset 0 and return
its version sum.  The `none` arm is unreachable (`p1run_suff` below). -/
def part1 (data : List Nat) : Except Error Nat :=
  match p1run data (decodeFuel data) (.packet 0) with
  | some (.error e) => .error e
  | some (.ok (v, _)) => .ok v
  | none => .error .Eof

/-- Outcome of a `part2::evaluate` call step.  `panicked` models a Rust panic
(`unwrap` on an empty iterator or out-of-bounds slice indexing); the Rust
process aborts there, so no `Error` value is produced. -/
inductive P2Res where
  | ok (a pos : Nat) (stack : List Nat)
  | err (e : Error)
  | panicked
deriving DecidableEq

/-- Call descriptors for the recursion sites of `part2::evaluate`, carrying
the shared operand stack `eval_stack`.  `loopBits` also carries the running
`operand_count`. -/
inductive P2Call where
  | packet (pos : Nat) (stack : List Nat)
  | loopBits (pos endIdx : Nat) (stack : List Nat) (opc : Nat)
  | loopCount (pos n : Nat) (stack : List Nat)

/-- Combinator modelling the Rust `?` operator inside `part2::evaluate`. -/
def liftP {α : Type} (x : Except Error α) (f : α → Option P2Res) : Option P2Res :=
  match x with
  | .error e => some (.err e)
  | .ok a => f a

/-- Propagation of the result of a recursive `evaluate` call: fuel exhaustion,
errors and panics propagate, a success is consumed. -/
def bindP (x : Option P2Res) (f : Nat → Nat → List Nat → Option P2Res) : Option P2Res :=
  match x with
  | none => none
  | some (.err e) => some (.err e)
  | some .panicked => some .panicked
  | some (.ok a q st) => f a q st

/-- Aggregation step of `part2::evaluate` (source lines 198-217): slice the
last `opcount` operands off the evaluation stack, compute the result selected
by `type_id`, and pop the operands (`resize`).  `foldl` with a wrapping step
models `iter().sum::<usize>()` / `iter().product::<usize>()`; `min?`/`max?`
model `iter().min()`/`iter().max()`, whose `unwrap` panics on an empty slice;
the comparison operators index `operands[0]`/`operands[1]` and panic when
fewer than two operands exist.  At every call site inside `p2run` the stack
holds at least `opcount` pushed operands, so the truncated subtraction in the
slice bound is exact. -/
def p2finish (type_id opcount pos : Nat) (stack : List Nat) : P2Res :=
  let operands := stack.drop (stack.length - opcount)
  let newstack := stack.take (stack.length - opcount)
  if type_id = TYPE_ID_SUM then
    .ok (operands.foldl (fun a b => (a + b) % U64) 0) pos newstack
  else if type_id = TYPE_ID_PRODUCT then
    .ok (operands.foldl (fun a b => (a * b) % U64) 1) pos newstack
  else if type_id = TYPE_ID_MIN then
    match operands.min? with
    | some m => .ok m pos newstack
    | none => .panicked
  else if type_id = TYPE_ID_MAX then
    match operands.max? with
    | some m => .ok m pos newstack
    | none => .panicked
  else if type_id = TYPE_ID_GT then
    match operands with
    | a :: b :: _ => .ok (if a > b then 1 else 0) pos newstack
    | _ => .panicked
  else if type_id = TYPE_ID_LT then
    match operands with
    | a :: b :: _ => .ok (if a < b then 1 else 0) pos newstack
    | _ => .panicked
  else if type_id = TYPE_ID_EQ then
    match operands with
    | a :: b :: _ => .ok (if a = b then 1 else 0) pos newstack
    | _ => .panicked
  else .err (.InvalidTypeId type_id)

/-- Fueled embedding of `part2::evaluate`.  A `some (.ok v q st)` result is
the evaluated value `v`, the reader position `q` after the packet, and the
operand stack `st` after the call returns. -/
def p2run (data : List Nat) : Nat → P2Call → Option P2Res
  | 0, _ => none
  | fuel + 1, .packet pos stack =>
    liftP (read_bits data pos 3) fun (_version, pos1) =>
    liftP (read_bits data pos1 3) fun (type_id, pos2) =>
    if type_id = TYPE_ID_LITERAL then
      liftP (read_compressed_literal data pos2) fun (lit, pos3) =>
      some (.ok lit pos3 stack)
    else
      liftP (read_bits data pos2 1) fun (length_type_id, pos3) =>
      if length_type_id = LENGTH_TYPE_ID_BIT_COUNT then
        liftP (read_bits data pos3 15) fun (total_bit_length, pos4) =>
        bindP (p2run data fuel (.loopBits pos4 (pos4 + total_bit_length) stack 0))
          fun opc pos5 stack5 => some (p2finish type_id opc pos5 stack5)
      else
        liftP (read_bits data pos3 11) fun (operand_count, pos4) =>
        bindP (p2run data fuel (.loopCount pos4 operand_count stack))
          fun _ pos5 stack5 => some (p2finish type_id operand_count pos5 stack5)
  | fuel + 1, .loopBits pos endIdx stack opc =>
    if pos < endIdx then
      bindP (p2run data fuel (.packet pos stack)) fun v q stack1 =>
        p2run data fuel (.loopBits q endIdx (stack1 ++ [v]) (opc + 1))
    else some (.ok opc pos stack)
  | fuel + 1, .loopCount pos n stack =>
    match n with
    | 0 => some (.ok 0 pos stack)
    | m + 1 =>
      bindP (p2run data fuel (.packet pos stack)) fun v q stack1 =>
        p2run data fuel (.loopCount q m (stack1 ++ [v]))

/-- Embedding of `part2`: decode and evaluate one root packet at bit offset 0
with an initially empty operand stack.  `none` models a run that does not
return normally: a Rust panic (the fuel-exhaustion `none` of `p2run` is
unreachable, `p2run_suff` below). -/
def part2 (data : List Nat) : Option (Except Error Nat) :=
  match p2run data (decodeFuel data) (.packet 0 []) with
  | some (.ok v _ _) => some (.ok v)
  | some (.err e) => some (.error e)
  | some .panicked => none
  | none => none

/-! ## Specification-side definitions

These definitions follow the wording of the specification (§4.1, §4.2) rather
than the Rust control flow; the refinement theorems below compare the
source-derived decoders against them. -/

/-- Bit `i` of the buffer, 0-indexed most-significant-bit-first within each
byte (spec §3, BitCursor). -/
def bitAt (data : List Nat) (i : Nat) : Nat :=
  (data.getD (i / 8) 0 >>> (7 - i % 8)) &&& 1

/-- The unsigned integer whose binary digits are the `n` bits of the buffer
starting at bit offset `pos`, most-significant-bit first (spec §4.1,
`read_bits` behavior). -/
def specBits (data : List Nat) (pos n : Nat) : Nat :=
  (List.range n).foldl (fun acc j => 2 * acc + bitAt data (pos + j)) 0

/-- Call descriptors shared by the two specification-side traversals. -/
inductive SCall where
  | packet (pos : Nat)
  | loopBits (pos endIdx : Nat)
  | loopCount (pos n : Nat)

/-- Propagation combinator for the specification-side traversals. -/
def bindS {α : Type} (x : Option (Except Error α)) (f : α → Option (Except Error α)) :
    Option (Except Error α) :=
  match x with
  | none => none
  | some (.error e) => some (.error e)
  | some (.ok a) => f a

/-- Specification of traversal A (spec §4.2): the version sum of a packet is
its own `version` plus the version sums of all its children (taken modulo the
`usize` width); a loop call returns the list of its children's version sums in
decode order together with the end position. -/
def specVS (data : List Nat) : Nat → SCall → Option (Except Error (List Nat × Nat))
  | 0, _ => none
  | fuel + 1, .packet pos =>
    liftE (read_bits data pos 3) fun (version, pos1) =>
    liftE (read_bits data pos1 3) fun (type_id, pos2) =>
    if type_id = TYPE_ID_LITERAL then
      liftE (read_compressed_literal data pos2) fun (_literal, pos3) =>
      some (.ok ([version], pos3))
    else
      liftE (read_bits data pos2 1) fun (length_type_id, pos3) =>
      if length_type_id = LENGTH_TYPE_ID_BIT_COUNT then
        liftE (read_bits data pos3 15) fun (total_bit_length, pos4) =>
        bindS (specVS data fuel (.loopBits pos4 (pos4 + total_bit_length)))
          fun (cs, q) => some (.ok ([(version + cs.sum) % U64], q))
      else
        liftE (read_bits data pos3 11) fun (operand_count, pos4) =>
        bindS (specVS data fuel (.loopCount pos4 operand_count))
          fun (cs, q) => some (.ok ([(version + cs.sum) % U64], q))
  | fuel + 1, .loopBits pos endIdx =>
    if pos < endIdx then
      bindS (specVS data fuel (.packet pos)) fun (vs, q) =>
      bindS (specVS data fuel (.loopBits q endIdx)) fun (cs, r) =>
      some (.ok (vs ++ cs, r))
    else some (.ok ([], pos))
  | fuel + 1, .loopCount pos n =>
    match n with
    | 0 => some (.ok ([], pos))
    | m + 1 =>
      bindS (specVS data fuel (.packet pos)) fun (vs, q) =>
      bindS (specVS data fuel (.loopCount q m)) fun (cs, r) =>
      some (.ok (vs ++ cs, r))

/-- Outcome of a specification-side evaluate call: `ok vs q` carries a
singleton value list for a packet call and the list of children's values in
decode order for a loop call. -/
inductive SRes where
  | ok (vs : List Nat) (pos : Nat)
  | err (e : Error)
  | panicked
deriving DecidableEq

/-- Propagation combinator for the specification-side evaluate traversal. -/
def bindR (x : Option SRes) (f : List Nat → Nat → Option SRes) : Option SRes :=
  match x with
  | none => none
  | some (.err e) => some (.err e)
  | some .panicked => some .panicked
  | some (.ok vs q) => f vs q

/-- Aggregation table of traversal B (spec §4.2): the value of an operator
packet computed from its children's already-evaluated values `cs` taken in
decode order.  Sums and products are `usize` sums and products; `min`/`max`
need at least one operand and the comparisons use exactly `cs[0]` and `cs[1]`
(fewer than the required operands is a panic). -/
def specAggRes (type_id : Nat) (cs : List Nat) (pos : Nat) : SRes :=
  if type_id = TYPE_ID_SUM then .ok [cs.sum % U64] pos
  else if type_id = TYPE_ID_PRODUCT then .ok [cs.prod % U64] pos
  else if type_id = TYPE_ID_MIN then
    match cs.min? with
    | some m => .ok [m] pos
    | none => .panicked
  else if type_id = TYPE_ID_MAX then
    match cs.max? with
    | some m => .ok [m] pos
    | none => .panicked
  else if type_id = TYPE_ID_GT then
    match cs with
    | a :: b :: _ => .ok [if a > b then 1 else 0] pos
    | _ => .panicked
  else if type_id = TYPE_ID_LT then
    match cs with
    | a :: b :: _ => .ok [if a < b then 1 else 0] pos
    | _ => .panicked
  else if type_id = TYPE_ID_EQ then
    match cs with
    | a :: b :: _ => .ok [if a = b then 1 else 0] pos
    | _ => .panicked
  else .err (.InvalidTypeId type_id)

/-- Specification combinator modelling the `?` operator in traversal B. -/
def liftR {α : Type} (x : Except Error α) (f : α → Option SRes) : Option SRes :=
  match x with
  | .error e => some (.err e)
  | .ok a => f a

/-- Specification of traversal B (spec §4.2): a literal packet evaluates to
its literal value; an operator packet evaluates to the aggregation of its
children's already-evaluated values taken in decode order. -/
def specEval (data : List Nat) : Nat → SCall → Option SRes
  | 0, _ => none
  | fuel + 1, .packet pos =>
    liftR (read_bits data pos 3) fun (_version, pos1) =>
    liftR (read_bits data pos1 3) fun (type_id, pos2) =>
    if type_id = TYPE_ID_LITERAL then
      liftR (read_compressed_literal data pos2) fun (lit, pos3) =>
      some (.ok [lit] pos3)
    else
      liftR (read_bits data pos2 1) fun (length_type_id, pos3) =>
      if length_type_id = LENGTH_TYPE_ID_BIT_COUNT then
        liftR (read_bits data pos3 15) fun (total_bit_length, pos4) =>
        bindR (specEval data fuel (.loopBits pos4 (pos4 + total_bit_length)))
          fun cs q => some (specAggRes type_id cs q)
      else
        liftR (read_bits data pos3 11) fun (operand_count, pos4) =>
        bindR (specEval data fuel (.loopCount pos4 operand_count))
          fun cs q => some (specAggRes type_id cs q)
  | fuel + 1, .loopBits pos endIdx =>
    if pos < endIdx then
      bindR (specEval data fuel (.packet pos)) fun vs q =>
      bindR (specEval data fuel (.loopBits q endIdx)) fun cs r =>
      some (.ok (vs ++ cs) r)
    else some (.ok [] pos)
  | fuel + 1, .loopCount pos n =>
    match n with
    | 0 => some (.ok [] pos)
    | m + 1 =>
      bindR (specEval data fuel (.packet pos)) fun vs q =>
      bindR (specEval data fuel (.loopCount q m)) fun cs r =>
      some (.ok (vs ++ cs) r)

/-- Map a specification-side version-sum packet result to the implementation
result: the singleton value list is collapsed. -/
def vsLiftP (x : Option (Except Error (List Nat × Nat))) : Option (Except Error (Nat × Nat)) :=
  match x with
  | none => none
  | some (.error e) => some (.error e)
  | some (.ok (vs, q)) => some (.ok (vs.headD 0, q))

/-- Map a specification-side version-sum loop result to the implementation
result of the accumulator-carrying loop starting from accumulator `acc`. -/
def vsLiftL (acc : Nat) (x : Option (Except Error (List Nat × Nat))) :
    Option (Except Error (Nat × Nat)) :=
  match x with
  | none => none
  | some (.error e) => some (.error e)
  | some (.ok (cs, q)) => some (.ok ((acc + cs.sum) % U64, q))

/-- Map a specification-side evaluate packet result to the implementation
result with entry stack `stack`: the stack is returned unchanged. -/
def evLiftP (stack : List Nat) (x : Option SRes) : Option P2Res :=
  match x with
  | none => none
  | some (.err e) => some (.err e)
  | some .panicked => some .panicked
  | some (.ok vs q) => some (.ok (vs.headD 0) q stack)

/-- Map a specification-side evaluate loop result to the implementation result
of the length-delimited loop starting from stack `stack` and running operand
count `opc`: the children's values are pushed onto the stack in decode
order. -/
def evLiftB (stack : List Nat) (opc : Nat) (x : Option SRes) : Option P2Res :=
  match x with
  | none => none
  | some (.err e) => some (.err e)
  | some .panicked => some .panicked
  | some (.ok cs q) => some (.ok (opc + cs.length) q (stack ++ cs))

/-- Map a specification-side evaluate loop result to the implementation result
of the count-delimited loop starting from stack `stack`. -/
def evLiftC (stack : List Nat) (x : Option SRes) : Option P2Res :=
  match x with
  | none => none
  | some (.err e) => some (.err e)
  | some .panicked => some .panicked
  | some (.ok cs q) => some (.ok 0 q (stack ++ cs))

/-! ## Lemmas about the bit reader -/

theorem readBitsLoop_pos (data : List Nat) :
    ∀ fuel count pos r, count ≤ fuel →
      (readBitsLoop data fuel pos count r).2 = pos + count := by
  intro fuel
  induction fuel with
  | zero =>
    intro count pos r h
    have hc : count = 0 := by omega
    subst hc
    simp [readBitsLoop]
  | succ fuel ih =>
    intro count pos r h
    by_cases hc : count = 0
    · subst hc; simp [readBitsLoop]
    · simp only [readBitsLoop, if_neg hc]
      have h8 : pos % 8 < 8 := Nat.mod_lt _ (by omega)
      have hcw1 : 1 ≤ min (8 - pos % 8) count := by omega
      have hcwc : min (8 - pos % 8) count ≤ count := Nat.min_le_right _ _
      rw [ih (count - min (8 - pos % 8) count) _ _ (by omega)]
      omega

theorem shiftRight_mod_two_pow (b : Nat) :
    ∀ w s, (b >>> s) % 2 ^ w =
      (List.range w).foldl (fun acc j => 2 * acc + ((b >>> (s + w - 1 - j)) &&& 1)) 0 := by
  intro w
  induction w with
  | zero =>
    intro s
    simp only [List.range_zero, List.foldl_nil, pow_zero, Nat.mod_one]
  | succ w ih =>
    intro s
    rw [List.range_succ, List.foldl_append]
    have hcong :
        (List.range w).foldl (fun acc j => 2 * acc + ((b >>> (s + (w + 1) - 1 - j)) &&& 1)) 0
          = (List.range w).foldl (fun acc j => 2 * acc + ((b >>> (s + 1 + w - 1 - j)) &&& 1)) 0 := by
      apply List.foldl_ext
      intro a j hj
      have hjw : j < w := List.mem_range.mp hj
      have hidx : s + (w + 1) - 1 - j = s + 1 + w - 1 - j := by omega
      rw [hidx]
    rw [hcong, ← ih (s + 1)]
    simp only [List.foldl_cons, List.foldl_nil]
    have hidx2 : s + (w + 1) - 1 - w = s := by omega
    rw [hidx2, Nat.shiftRight_succ, Nat.and_one_is_mod, Nat.pow_succ', Nat.mod_mul]
    exact Nat.add_comm _ _

theorem chunk_eq_specBits (data : List Nat) (pos cw : Nat) (h : cw ≤ 8 - pos % 8) :
    (data.getD (pos / 8) 0 >>> (8 - pos % 8 - cw)) &&& (2 ^ cw - 1)
      = specBits data pos cw := by
  rw [Nat.and_pow_two_sub_one_eq_mod, shiftRight_mod_two_pow]
  unfold specBits
  apply List.foldl_ext
  intro a j hj
  have hjw : j < cw := List.mem_range.mp hj
  have h8 : pos % 8 < 8 := Nat.mod_lt _ (by omega)
  unfold bitAt
  have h1 : (pos + j) / 8 = pos / 8 := by omega
  have h2 : 8 - pos % 8 - cw + cw - 1 - j = 7 - (pos + j) % 8 := by omega
  rw [h1, h2]

theorem foldl_two_mul_init (g : Nat → Nat) :
    ∀ (l : List Nat) (s : Nat),
      l.foldl (fun a j => 2 * a + g j) s
        = s * 2 ^ l.length + l.foldl (fun a j => 2 * a + g j) 0 := by
  intro l
  induction l with
  | nil => intro s; simp
  | cons x xs ih =>
    intro s
    simp only [List.foldl_cons, List.length_cons]
    rw [ih (2 * s + g x), ih (2 * 0 + g x)]
    ring

theorem specBits_lt (data : List Nat) (pos : Nat) : ∀ n, specBits data pos n < 2 ^ n := by
  intro n
  induction n with
  | zero => simp [specBits]
  | succ n ih =>
    unfold specBits at ih ⊢
    rw [List.range_succ, List.foldl_append]
    simp only [List.foldl_cons, List.foldl_nil]
    have hb : bitAt data (pos + n) ≤ 1 := Nat.and_le_right
    rw [Nat.pow_succ]
    omega

theorem specBits_add (data : List Nat) (pos m k : Nat) :
    specBits data pos (m + k) = specBits data pos m * 2 ^ k + specBits data (pos + m) k := by
  unfold specBits
  rw [List.range_add, List.foldl_append, List.foldl_map]
  have hcong :
      (List.range k).foldl (fun a j => 2 * a + bitAt data (pos + (m + j)))
          ((List.range m).foldl (fun acc j => 2 * acc + bitAt data (pos + j)) 0)
        = (List.range k).foldl (fun a j => 2 * a + bitAt data (pos + m + j))
          ((List.range m).foldl (fun acc j => 2 * acc + bitAt data (pos + j)) 0) := by
    apply List.foldl_ext
    intro a j _
    have : pos + (m + j) = pos + m + j := by omega
    rw [this]
  rw [hcong, foldl_two_mul_init (fun j => bitAt data (pos + m + j)), List.length_range]

theorem readBitsLoop_spec (data : List Nat) :
    ∀ fuel count pos r, count ≤ fuel → count ≤ 16 → r < 2 ^ (16 - count) →
      readBitsLoop data fuel pos count r
        = (r * 2 ^ count + specBits data pos count, pos + count) := by
  intro fuel
  induction fuel with
  | zero =>
    intro count pos r h _ _
    have hc : count = 0 := by omega
    subst hc
    simp [readBitsLoop, specBits]
  | succ fuel ih =>
    intro count pos r hf h16 hr
    by_cases hc : count = 0
    · subst hc; simp [readBitsLoop, specBits]
    · simp only [readBitsLoop, if_neg hc]
      have h8 : pos % 8 < 8 := Nat.mod_lt _ (by omega)
      have hcw1 : 1 ≤ min (8 - pos % 8) count := by omega
      have hcwc : min (8 - pos % 8) count ≤ count := Nat.min_le_right _ _
      have hcw8 : min (8 - pos % 8) count ≤ 8 - pos % 8 := Nat.min_le_left _ _
      set cw := min (8 - pos % 8) count with hcwdef
      have hchunk : (data.getD (pos / 8) 0 >>> (8 - pos % 8 - cw)) &&& (2 ^ cw - 1)
          = specBits data pos cw := chunk_eq_specBits data pos cw hcw8
      have hU16 : U16 = 2 ^ 16 := by norm_num [U16]
      have hshift : (r <<< cw) % U16 = r * 2 ^ cw := by
        rw [Nat.shiftLeft_eq, hU16]
        apply Nat.mod_eq_of_lt
        calc r * 2 ^ cw < 2 ^ (16 - count) * 2 ^ cw :=
              (Nat.mul_lt_mul_right (Nat.two_pow_pos cw)).mpr hr
          _ ≤ 2 ^ 16 := by
              rw [← pow_add]
              exact Nat.pow_le_pow_right (by omega) (by omega)
      have hsb : specBits data pos cw < 2 ^ cw := specBits_lt data pos cw
      have hor : (r <<< cw) % U16 ||| ((data.getD (pos / 8) 0 >>> (8 - pos % 8 - cw)) &&& (2 ^ cw - 1))
          = r * 2 ^ cw + specBits data pos cw := by
        rw [hshift, hchunk, Nat.mul_comm r (2 ^ cw), ← Nat.mul_add_lt_is_or hsb r]
      rw [hor]
      have hbound : r * 2 ^ cw + specBits data pos cw < 2 ^ (16 - (count - cw)) := by
        have h2 : r * 2 ^ cw + specBits data pos cw < (r + 1) * 2 ^ cw := by
          rw [Nat.add_mul, Nat.one_mul]
          omega
        have h3 : (r + 1) * 2 ^ cw ≤ 2 ^ (16 - count) * 2 ^ cw :=
          Nat.mul_le_mul_right _ (by omega)
        have h4 : 2 ^ (16 - count) * 2 ^ cw = 2 ^ (16 - (count - cw)) := by
          rw [← pow_add]
          congr 1
          omega
        omega
      rw [ih (count - cw) (pos + cw) _ (by omega) (by omega) hbound]
      have hcount : cw + (count - cw) = count := by omega
      have hval : (r * 2 ^ cw + specBits data pos cw) * 2 ^ (count - cw)
            + specBits data (pos + cw) (count - cw)
          = r * 2 ^ count + specBits data pos count := by
        conv_rhs => rw [← hcount, specBits_add, pow_add]
        ring
      rw [hval]
      have hpos : pos + cw + (count - cw) = pos + count := by omega
      rw [hpos]

theorem read_bits_ok (data : List Nat) (pos n v q : Nat)
    (h : read_bits data pos n = .ok (v, q)) :
    q = pos + n ∧ pos + n ≤ 8 * data.length ∧ n ≤ 16 := by
  unfold read_bits at h
  by_cases h1 : n > 16
  · rw [if_pos h1] at h; simp at h
  · rw [if_neg h1] at h
    by_cases h2 : pos + n > 8 * data.length
    · rw [if_pos h2] at h; simp at h
    · rw [if_neg h2] at h
      have hloop := readBitsLoop_pos data n n pos 0 (le_refl n)
      simp only [Except.ok.injEq] at h
      refine ⟨?_, by omega, by omega⟩
      rw [h] at hloop
      simpa using hloop

theorem read_bits_spec (data : List Nat) (pos n : Nat) (h16 : n ≤ 16)
    (hle : pos + n ≤ 8 * data.length) :
    read_bits data pos n = .ok (specBits data pos n, pos + n) := by
  unfold read_bits
  rw [if_neg (by omega), if_neg (by omega)]
  rw [readBitsLoop_spec data n n pos 0 (le_refl n) h16 (Nat.two_pow_pos _)]
  simp

theorem readBitsLoop_append (data ext : List Nat) :
    ∀ fuel pos count r, pos + count ≤ 8 * data.length →
      readBitsLoop (data ++ ext) fuel pos count r = readBitsLoop data fuel pos count r := by
  intro fuel
  induction fuel with
  | zero => intro pos count r _; simp [readBitsLoop]
  | succ fuel ih =>
    intro pos count r hb
    by_cases hc : count = 0
    · subst hc; simp [readBitsLoop]
    · simp only [readBitsLoop, if_neg hc]
      have h8 : pos % 8 < 8 := Nat.mod_lt _ (by omega)
      have hidx : pos / 8 < data.length := by omega
      rw [List.getD_append _ _ _ _ hidx]
      have hcwc : min (8 - pos % 8) count ≤ count := Nat.min_le_right _ _
      rw [ih _ _ _ (by omega)]

theorem read_bits_append (data ext : List Nat) (pos n v q : Nat)
    (h : read_bits data pos n = .ok (v, q)) :
    read_bits (data ++ ext) pos n = .ok (v, q) := by
  obtain ⟨hq, hle, h16⟩ := read_bits_ok data pos n v q h
  unfold read_bits at h ⊢
  rw [if_neg (by omega)] at h ⊢
  rw [if_neg (by omega)] at h
  rw [List.length_append, if_neg (by omega)]
  rw [readBitsLoop_append data ext n pos n 0 (by omega)]
  exact h

/-! ## Lemmas about the literal reader -/

theorem read_bits_eof (data : List Nat) (pos n : Nat) (h16 : n ≤ 16)
    (h : 8 * data.length < pos + n) : read_bits data pos n = .error .Eof := by
  unfold read_bits
  rw [if_neg (by omega), if_pos (by omega)]

theorem read_bits_err_small (data : List Nat) (pos n : Nat) (h16 : n ≤ 16) (e : Error)
    (h : read_bits data pos n = .error e) : e = .Eof := by
  unfold read_bits at h
  rw [if_neg (by omega)] at h
  by_cases h2 : pos + n > 8 * data.length
  · rw [if_pos h2] at h
    simp only [Except.error.injEq] at h
    exact h.symm
  · rw [if_neg h2] at h
    simp at h

theorem readLiteralF_succ (data : List Nat) (fuel position result : Nat) :
    readLiteralF data (fuel + 1) position result =
      match read_bits data position 5 with
      | .error e => some (.error e)
      | .ok (chunk, position1) =>
        if chunk &&& 16 = 0 then some (.ok (((result <<< 4) % U64) ||| (chunk &&& 15), position1))
        else readLiteralF data fuel position1 (((result <<< 4) % U64) ||| (chunk &&& 15)) := rfl

theorem readLiteralF_ok (data : List Nat) :
    ∀ fuel pos r v q, readLiteralF data fuel pos r = some (.ok (v, q)) →
      pos < q ∧ q ≤ 8 * data.length := by
  intro fuel
  induction fuel with
  | zero => intro pos r v q h; simp [readLiteralF] at h
  | succ fuel ih =>
    intro pos r v q h
    rw [readLiteralF_succ] at h
    cases hrb : read_bits data pos 5 with
    | error e => simp only [hrb] at h; simp at h
    | ok cp =>
      obtain ⟨chunk, pos1⟩ := cp
      simp only [hrb] at h
      obtain ⟨hq1, hle1, -⟩ := read_bits_ok data pos 5 chunk pos1 hrb
      by_cases hflag : chunk &&& 16 = 0
      · rw [if_pos hflag] at h
        simp only [Option.some.injEq, Except.ok.injEq, Prod.mk.injEq] at h
        omega
      · rw [if_neg hflag] at h
        have := ih pos1 _ v q h
        omega

theorem readLiteralF_mono (data : List Nat) :
    ∀ fuel fuel' pos r x, fuel ≤ fuel' →
      readLiteralF data fuel pos r = some x →
      readLiteralF data fuel' pos r = some x := by
  intro fuel
  induction fuel with
  | zero => intro fuel' pos r x _ h; simp [readLiteralF] at h
  | succ fuel ih =>
    intro fuel' pos r x hle h
    obtain ⟨fuel2, rfl⟩ : ∃ f2, fuel' = f2 + 1 := ⟨fuel' - 1, by omega⟩
    rw [readLiteralF_succ] at h ⊢
    cases hrb : read_bits data pos 5 with
    | error e => simp only [hrb] at h ⊢; exact h
    | ok cp =>
      obtain ⟨chunk, pos1⟩ := cp
      simp only [hrb] at h ⊢
      by_cases hflag : chunk &&& 16 = 0
      · rw [if_pos hflag] at h ⊢; exact h
      · rw [if_neg hflag] at h ⊢
        exact ih fuel2 pos1 _ x (by omega) h

theorem readLiteralF_suff (data : List Nat) :
    ∀ fuel pos r, 8 * data.length + 5 - pos < 5 * fuel →
      readLiteralF data fuel pos r ≠ none := by
  intro fuel
  induction fuel with
  | zero => intro pos r h; exact absurd h (by omega)
  | succ fuel ih =>
    intro pos r h
    rw [readLiteralF_succ]
    cases hrb : read_bits data pos 5 with
    | error e => simp only [hrb]; simp
    | ok cp =>
      obtain ⟨chunk, pos1⟩ := cp
      simp only [hrb]
      obtain ⟨hq1, hle1, -⟩ := read_bits_ok data pos 5 chunk pos1 hrb
      by_cases hflag : chunk &&& 16 = 0
      · rw [if_pos hflag]; simp
      · rw [if_neg hflag]
        exact ih pos1 _ (by omega)

theorem readLiteralF_err (data : List Nat) :
    ∀ fuel pos r e, readLiteralF data fuel pos r = some (.error e) → e = .Eof := by
  intro fuel
  induction fuel with
  | zero => intro pos r e h; simp [readLiteralF] at h
  | succ fuel ih =>
    intro pos r e h
    rw [readLiteralF_succ] at h
    cases hrb : read_bits data pos 5 with
    | error e1 =>
      simp only [hrb] at h
      simp only [Option.some.injEq, Except.error.injEq] at h
      subst h
      exact read_bits_err_small data pos 5 (by omega) _ hrb
    | ok cp =>
      obtain ⟨chunk, pos1⟩ := cp
      simp only [hrb] at h
      by_cases hflag : chunk &&& 16 = 0
      · rw [if_pos hflag] at h; simp at h
      · rw [if_neg hflag] at h
        exact ih pos1 _ e h

theorem readLiteralF_err_acc (data : List Nat) :
    ∀ fuel pos r r' e, readLiteralF data fuel pos r = some (.error e) →
      readLiteralF data fuel pos r' = some (.error e) := by
  intro fuel
  induction fuel with
  | zero => intro pos r r' e h; simp [readLiteralF] at h
  | succ fuel ih =>
    intro pos r r' e h
    rw [readLiteralF_succ] at h ⊢
    cases hrb : read_bits data pos 5 with
    | error e1 => simp only [hrb] at h ⊢; exact h
    | ok cp =>
      obtain ⟨chunk, pos1⟩ := cp
      simp only [hrb] at h ⊢
      by_cases hflag : chunk &&& 16 = 0
      · rw [if_pos hflag] at h; simp at h
      · rw [if_neg hflag] at h ⊢
        exact ih pos1 _ _ e h

theorem readLiteralF_append (data ext : List Nat) :
    ∀ fuel pos r v q, readLiteralF data fuel pos r = some (.ok (v, q)) →
      readLiteralF (data ++ ext) fuel pos r = some (.ok (v, q)) := by
  intro fuel
  induction fuel with
  | zero => intro pos r v q h; simp [readLiteralF] at h
  | succ fuel ih =>
    intro pos r v q h
    rw [readLiteralF_succ] at h ⊢
    cases hrb : read_bits data pos 5 with
    | error e => simp only [hrb] at h; simp at h
    | ok cp =>
      obtain ⟨chunk, pos1⟩ := cp
      simp only [hrb] at h
      simp only [read_bits_append data ext pos 5 chunk pos1 hrb]
      by_cases hflag : chunk &&& 16 = 0
      · rw [if_pos hflag] at h ⊢; exact h
      · rw [if_neg hflag] at h ⊢
        exact ih pos1 _ v q h

theorem read_compressed_literal_ok (data : List Nat) (pos v q : Nat)
    (h : read_compressed_literal data pos = .ok (v, q)) :
    pos < q ∧ q ≤ 8 * data.length := by
  unfold read_compressed_literal at h
  cases hF : readLiteralF data (litFuel data) pos 0 with
  | none => rw [hF] at h; simp at h
  | some x =>
    rw [hF] at h
    simp only [Option.getD_some] at h
    subst h
    exact readLiteralF_ok data (litFuel data) pos 0 v q hF

theorem read_compressed_literal_append (data ext : List Nat) (pos v q : Nat)
    (h : read_compressed_literal data pos = .ok (v, q)) :
    read_compressed_literal (data ++ ext) pos = .ok (v, q) := by
  unfold read_compressed_literal at h ⊢
  cases hF : readLiteralF data (litFuel data) pos 0 with
  | none => rw [hF] at h; simp at h
  | some x =>
    rw [hF] at h
    simp only [Option.getD_some] at h
    subst h
    have h1 := readLiteralF_append data ext (litFuel data) pos 0 v q hF
    have h2 := readLiteralF_mono (data ++ ext) (litFuel data) (litFuel (data ++ ext)) pos 0 _
      (by unfold litFuel; rw [List.length_append]; omega) h1
    rw [h2]
    rfl

theorem read_compressed_literal_err (data : List Nat) (pos : Nat) (e : Error)
    (h : read_compressed_literal data pos = .error e) : e = .Eof := by
  unfold read_compressed_literal at h
  cases hF : readLiteralF data (litFuel data) pos 0 with
  | none =>
    rw [hF] at h
    simp only [Option.getD_none, Except.error.injEq] at h
    exact h.symm
  | some x =>
    rw [hF] at h
    simp only [Option.getD_some] at h
    subst h
    exact readLiteralF_err data (litFuel data) pos 0 e hF

theorem read_compressed_literal_eof (data : List Nat) (pos : Nat)
    (h : 8 * data.length < pos + 5) :
    read_compressed_literal data pos = .error .Eof := by
  unfold read_compressed_literal
  obtain ⟨k, hk⟩ : ∃ k, litFuel data = k + 1 := ⟨8 * data.length + 1, by unfold litFuel; omega⟩
  rw [hk, readLiteralF_succ]
  simp only [read_bits_eof data pos 5 (by omega) h]
  rfl

/-! ## Reduction lemmas for the combinators and the fueled decoders -/

@[simp] theorem liftE_error {α β : Type} (e : Error) (f : α → Option (Except Error β)) :
    liftE (.error e) f = some (.error e) := rfl

@[simp] theorem liftE_ok {α β : Type} (a : α) (f : α → Option (Except Error β)) :
    liftE (.ok a) f = f a := rfl

@[simp] theorem bind1_none (f : Nat → Nat → Option (Except Error (Nat × Nat))) :
    bind1 none f = none := rfl

@[simp] theorem bind1_error (e : Error) (f : Nat → Nat → Option (Except Error (Nat × Nat))) :
    bind1 (some (.error e)) f = some (.error e) := rfl

@[simp] theorem bind1_ok (v q : Nat) (f : Nat → Nat → Option (Except Error (Nat × Nat))) :
    bind1 (some (.ok (v, q))) f = f v q := rfl

@[simp] theorem liftP_error {α : Type} (e : Error) (f : α → Option P2Res) :
    liftP (.error e) f = some (.err e) := rfl

@[simp] theorem liftP_ok {α : Type} (a : α) (f : α → Option P2Res) :
    liftP (.ok a) f = f a := rfl

@[simp] theorem bindP_none (f : Nat → Nat → List Nat → Option P2Res) :
    bindP none f = none := rfl

@[simp] theorem bindP_err (e : Error) (f : Nat → Nat → List Nat → Option P2Res) :
    bindP (some (.err e)) f = some (.err e) := rfl

@[simp] theorem bindP_panicked (f : Nat → Nat → List Nat → Option P2Res) :
    bindP (some .panicked) f = some .panicked := rfl

@[simp] theorem bindP_ok (a q : Nat) (st : List Nat) (f : Nat → Nat → List Nat → Option P2Res) :
    bindP (some (.ok a q st)) f = f a q st := rfl

@[simp] theorem bindS_none {α : Type} (f : α → Option (Except Error α)) :
    bindS none f = none := rfl

@[simp] theorem bindS_error {α : Type} (e : Error) (f : α → Option (Except Error α)) :
    bindS (some (.error e)) f = some (.error e) := rfl

@[simp] theorem bindS_ok {α : Type} (a : α) (f : α → Option (Except Error α)) :
    bindS (some (.ok a)) f = f a := rfl

@[simp] theorem bindR_none (f : List Nat → Nat → Option SRes) : bindR none f = none := rfl

@[simp] theorem bindR_err (e : Error) (f : List Nat → Nat → Option SRes) :
    bindR (some (.err e)) f = some (.err e) := rfl

@[simp] theorem bindR_panicked (f : List Nat → Nat → Option SRes) :
    bindR (some .panicked) f = some .panicked := rfl

@[simp] theorem bindR_ok (vs : List Nat) (q : Nat) (f : List Nat → Nat → Option SRes) :
    bindR (some (.ok vs q)) f = f vs q := rfl

@[simp] theorem liftR_error {α : Type} (e : Error) (f : α → Option SRes) :
    liftR (.error e) f = some (.err e) := rfl

@[simp] theorem liftR_ok {α : Type} (a : α) (f : α → Option SRes) :
    liftR (.ok a) f = f a := rfl

@[simp] theorem vsLiftP_none : vsLiftP none = none := rfl

@[simp] theorem vsLiftP_error (e : Error) : vsLiftP (some (.error e)) = some (.error e) := rfl

@[simp] theorem vsLiftP_ok (vs : List Nat) (q : Nat) :
    vsLiftP (some (.ok (vs, q))) = some (.ok (vs.headD 0, q)) := rfl

@[simp] theorem vsLiftL_none (acc : Nat) : vsLiftL acc none = none := rfl

@[simp] theorem vsLiftL_error (acc : Nat) (e : Error) :
    vsLiftL acc (some (.error e)) = some (.error e) := rfl

@[simp] theorem vsLiftL_ok (acc : Nat) (cs : List Nat) (q : Nat) :
    vsLiftL acc (some (.ok (cs, q))) = some (.ok ((acc + cs.sum) % U64, q)) := rfl

@[simp] theorem evLiftP_none (stack : List Nat) : evLiftP stack none = none := rfl

@[simp] theorem evLiftP_err (stack : List Nat) (e : Error) :
    evLiftP stack (some (.err e)) = some (.err e) := rfl

@[simp] theorem evLiftP_panicked (stack : List Nat) :
    evLiftP stack (some .panicked) = some .panicked := rfl

@[simp] theorem evLiftP_ok (stack : List Nat) (vs : List Nat) (q : Nat) :
    evLiftP stack (some (.ok vs q)) = some (.ok (vs.headD 0) q stack) := rfl

@[simp] theorem evLiftB_none (stack : List Nat) (opc : Nat) : evLiftB stack opc none = none := rfl

@[simp] theorem evLiftB_err (stack : List Nat) (opc : Nat) (e : Error) :
    evLiftB stack opc (some (.err e)) = some (.err e) := rfl

@[simp] theorem evLiftB_panicked (stack : List Nat) (opc : Nat) :
    evLiftB stack opc (some .panicked) = some .panicked := rfl

@[simp] theorem evLiftB_ok (stack : List Nat) (opc : Nat) (cs : List Nat) (q : Nat) :
    evLiftB stack opc (some (.ok cs q)) = some (.ok (opc + cs.length) q (stack ++ cs)) := rfl

@[simp] theorem evLiftC_none (stack : List Nat) : evLiftC stack none = none := rfl

@[simp] theorem evLiftC_err (stack : List Nat) (e : Error) :
    evLiftC stack (some (.err e)) = some (.err e) := rfl

@[simp] theorem evLiftC_panicked (stack : List Nat) :
    evLiftC stack (some .panicked) = some .panicked := rfl

@[simp] theorem evLiftC_ok (stack : List Nat) (cs : List Nat) (q : Nat) :
    evLiftC stack (some (.ok cs q)) = some (.ok 0 q (stack ++ cs)) := rfl

theorem p1run_packet (data : List Nat) (fuel pos : Nat) :
    p1run data (fuel + 1) (.packet pos) =
      (liftE (read_bits data pos 3) fun (version, pos1) =>
       liftE (read_bits data pos1 3) fun (type_id, pos2) =>
       if type_id = TYPE_ID_LITERAL then
         liftE (read_compressed_literal data pos2) fun (_literal, pos3) =>
         some (.ok (version, pos3))
       else
         liftE (read_bits data pos2 1) fun (length_type_id, pos3) =>
         if length_type_id = LENGTH_TYPE_ID_BIT_COUNT then
           liftE (read_bits data pos3 15) fun (total_bit_length, pos4) =>
           p1run data fuel (.loopBits pos4 (pos4 + total_bit_length) version)
         else
           liftE (read_bits data pos3 11) fun (operand_count, pos4) =>
           p1run data fuel (.loopCount pos4 operand_count version)) := rfl

theorem p1run_loopBits (data : List Nat) (fuel pos endIdx acc : Nat) :
    p1run data (fuel + 1) (.loopBits pos endIdx acc) =
      if pos < endIdx then
        bind1 (p1run data fuel (.packet pos)) fun v q =>
          p1run data fuel (.loopBits q endIdx ((acc + v) % U64))
      else some (.ok (acc, pos)) := rfl

theorem p1run_loopCount_zero (data : List Nat) (fuel pos acc : Nat) :
    p1run data (fuel + 1) (.loopCount pos 0 acc) = some (.ok (acc, pos)) := rfl

theorem p1run_loopCount_succ (data : List Nat) (fuel pos m acc : Nat) :
    p1run data (fuel + 1) (.loopCount pos (m + 1) acc) =
      bind1 (p1run data fuel (.packet pos)) fun v q =>
        p1run data fuel (.loopCount q m ((acc + v) % U64)) := rfl

theorem specVS_packet (data : List Nat) (fuel pos : Nat) :
    specVS data (fuel + 1) (.packet pos) =
      (liftE (read_bits data pos 3) fun (version, pos1) =>
       liftE (read_bits data pos1 3) fun (type_id, pos2) =>
       if type_id = TYPE_ID_LITERAL then
         liftE (read_compressed_literal data pos2) fun (_literal, pos3) =>
         some (.ok ([version], pos3))
       else
         liftE (read_bits data pos2 1) fun (length_type_id, pos3) =>
         if length_type_id = LENGTH_TYPE_ID_BIT_COUNT then
           liftE (read_bits data pos3 15) fun (total_bit_length, pos4) =>
           bindS (specVS data fuel (.loopBits pos4 (pos4 + total_bit_length)))
             fun (cs, q) => some (.ok ([(version + cs.sum) % U64], q))
         else
           liftE (read_bits data pos3 11) fun (operand_count, pos4) =>
           bindS (specVS data fuel (.loopCount pos4 operand_count))
             fun (cs, q) => some (.ok ([(version + cs.sum) % U64], q))) := rfl

theorem specVS_loopBits (data : List Nat) (fuel pos endIdx : Nat) :
    specVS data (fuel + 1) (.loopBits pos endIdx) =
      if pos < endIdx then
        bindS (specVS data fuel (.packet pos)) fun (vs, q) =>
        bindS (specVS data fuel (.loopBits q endIdx)) fun (cs, r) =>
        some (.ok (vs ++ cs, r))
      else some (.ok ([], pos)) := rfl

theorem specVS_loopCount_zero (data : List Nat) (fuel pos : Nat) :
    specVS data (fuel + 1) (.loopCount pos 0) = some (.ok ([], pos)) := rfl

theorem specVS_loopCount_succ (data : List Nat) (fuel pos m : Nat) :
    specVS data (fuel + 1) (.loopCount pos (m + 1)) =
      (bindS (specVS data fuel (.packet pos)) fun (vs, q) =>
       bindS (specVS data fuel (.loopCount q m)) fun (cs, r) =>
       some (.ok (vs ++ cs, r))) := rfl

theorem read_bits_lt (data : List Nat) (pos n v q : Nat)
    (h : read_bits data pos n = .ok (v, q)) : v < 2 ^ n := by
  obtain ⟨hq, hle, h16⟩ := read_bits_ok data pos n v q h
  rw [read_bits_spec data pos n h16 hle] at h
  simp only [Except.ok.injEq, Prod.mk.injEq] at h
  rw [← h.1]
  exact specBits_lt data pos n

/-! ## Progress, fuel and extension lemmas for the part1 decoder -/

theorem p1run_progress (data : List Nat) :
    ∀ fuel,
      (∀ pos v q, p1run data fuel (.packet pos) = some (.ok (v, q)) →
        pos < q ∧ q ≤ 8 * data.length) ∧
      (∀ pos endIdx acc v q, p1run data fuel (.loopBits pos endIdx acc) = some (.ok (v, q)) →
        pos ≤ q ∧ (pos ≤ 8 * data.length → q ≤ 8 * data.length)) ∧
      (∀ pos n acc v q, p1run data fuel (.loopCount pos n acc) = some (.ok (v, q)) →
        pos ≤ q ∧ (pos ≤ 8 * data.length → q ≤ 8 * data.length)) := by
  intro fuel
  induction fuel with
  | zero =>
    exact ⟨fun pos v q h => by simp [p1run] at h,
      fun pos endIdx acc v q h => by simp [p1run] at h,
      fun pos n acc v q h => by simp [p1run] at h⟩
  | succ fuel ih =>
    obtain ⟨ihP, ihB, ihC⟩ := ih
    refine ⟨?_, ?_, ?_⟩
    · intro pos v q h
      rw [p1run_packet] at h
      cases h3 : read_bits data pos 3 with
      | error e => simp [h3] at h
      | ok p =>
        obtain ⟨ver, pos1⟩ := p
        obtain ⟨hq1, hb1, -⟩ := read_bits_ok data pos 3 ver pos1 h3
        simp only [h3, liftE_ok] at h
        cases h4 : read_bits data pos1 3 with
        | error e => simp [h4] at h
        | ok p =>
          obtain ⟨tid, pos2⟩ := p
          obtain ⟨hq2, hb2, -⟩ := read_bits_ok data pos1 3 tid pos2 h4
          simp only [h4, liftE_ok] at h
          by_cases ht : tid = TYPE_ID_LITERAL
          · rw [if_pos ht] at h
            cases hlit : read_compressed_literal data pos2 with
            | error e => simp [hlit] at h
            | ok p =>
              obtain ⟨lit, pos3⟩ := p
              obtain ⟨hl1, hl2⟩ := read_compressed_literal_ok data pos2 lit pos3 hlit
              simp only [hlit, liftE_ok, Option.some.injEq, Except.ok.injEq,
                Prod.mk.injEq] at h
              obtain ⟨-, hq⟩ := h
              omega
          · rw [if_neg ht] at h
            cases h5 : read_bits data pos2 1 with
            | error e => simp [h5] at h
            | ok p =>
              obtain ⟨ltid, pos3⟩ := p
              obtain ⟨hq3, hb3, -⟩ := read_bits_ok data pos2 1 ltid pos3 h5
              simp only [h5, liftE_ok] at h
              by_cases hltid : ltid = LENGTH_TYPE_ID_BIT_COUNT
              · rw [if_pos hltid] at h
                cases h6 : read_bits data pos3 15 with
                | error e => simp [h6] at h
                | ok p =>
                  obtain ⟨tbl, pos4⟩ := p
                  obtain ⟨hq4, hb4, -⟩ := read_bits_ok data pos3 15 tbl pos4 h6
                  simp only [h6, liftE_ok] at h
                  have := ihB pos4 (pos4 + tbl) ver v q h
                  omega
              · rw [if_neg hltid] at h
                cases h6 : read_bits data pos3 11 with
                | error e => simp [h6] at h
                | ok p =>
                  obtain ⟨cnt, pos4⟩ := p
                  obtain ⟨hq4, hb4, -⟩ := read_bits_ok data pos3 11 cnt pos4 h6
                  simp only [h6, liftE_ok] at h
                  have := ihC pos4 cnt ver v q h
                  omega
    · intro pos endIdx acc v q h
      rw [p1run_loopBits] at h
      by_cases hlt : pos < endIdx
      · rw [if_pos hlt] at h
        cases hch : p1run data fuel (.packet pos) with
        | none => simp [hch] at h
        | some x =>
          cases x with
          | error e => simp [hch] at h
          | ok p =>
            obtain ⟨v1, q1⟩ := p
            simp only [hch, bind1_ok] at h
            have h1 := ihP pos v1 q1 hch
            have h2 := ihB q1 endIdx ((acc + v1) % U64) v q h
            omega
      · rw [if_neg hlt] at h
        simp only [Option.some.injEq, Except.ok.injEq, Prod.mk.injEq] at h
        obtain ⟨-, hq⟩ := h
        omega
    · intro pos n acc v q h
      cases n with
      | zero =>
        rw [p1run_loopCount_zero] at h
        simp only [Option.some.injEq, Except.ok.injEq, Prod.mk.injEq] at h
        obtain ⟨-, hq⟩ := h
        omega
      | succ m =>
        rw [p1run_loopCount_succ] at h
        cases hch : p1run data fuel (.packet pos) with
        | none => simp [hch] at h
        | some x =>
          cases x with
          | error e => simp [hch] at h
          | ok p =>
            obtain ⟨v1, q1⟩ := p
            simp only [hch, bind1_ok] at h
            have h1 := ihP pos v1 q1 hch
            have h2 := ihC q1 m ((acc + v1) % U64) v q h
            omega

theorem p1run_mono (data : List Nat) :
    ∀ fuel fuel' c x, fuel ≤ fuel' → p1run data fuel c = some x →
      p1run data fuel' c = some x := by
  intro fuel
  induction fuel with
  | zero => intro fuel' c x _ h; simp [p1run] at h
  | succ fuel ih =>
    intro fuel' c x hle h
    obtain ⟨f2, rfl⟩ : ∃ f2, fuel' = f2 + 1 := ⟨fuel' - 1, by omega⟩
    have hf : fuel ≤ f2 := by omega
    cases c with
    | packet pos =>
      rw [p1run_packet] at h ⊢
      cases h3 : read_bits data pos 3 with
      | error e => simp only [h3, liftE_error] at h ⊢; exact h
      | ok p =>
        obtain ⟨ver, pos1⟩ := p
        simp only [h3, liftE_ok] at h ⊢
        cases h4 : read_bits data pos1 3 with
        | error e => simp only [h4, liftE_error] at h ⊢; exact h
        | ok p =>
          obtain ⟨tid, pos2⟩ := p
          simp only [h4, liftE_ok] at h ⊢
          by_cases ht : tid = TYPE_ID_LITERAL
          · rw [if_pos ht] at h ⊢; exact h
          · rw [if_neg ht] at h ⊢
            cases h5 : read_bits data pos2 1 with
            | error e => simp only [h5, liftE_error] at h ⊢; exact h
            | ok p =>
              obtain ⟨ltid, pos3⟩ := p
              simp only [h5, liftE_ok] at h ⊢
              by_cases hltid : ltid = LENGTH_TYPE_ID_BIT_COUNT
              · rw [if_pos hltid] at h ⊢
                cases h6 : read_bits data pos3 15 with
                | error e => simp only [h6, liftE_error] at h ⊢; exact h
                | ok p =>
                  obtain ⟨tbl, pos4⟩ := p
                  simp only [h6, liftE_ok] at h ⊢
                  exact ih f2 _ x hf h
              · rw [if_neg hltid] at h ⊢
                cases h6 : read_bits data pos3 11 with
                | error e => simp only [h6, liftE_error] at h ⊢; exact h
                | ok p =>
                  obtain ⟨cnt, pos4⟩ := p
                  simp only [h6, liftE_ok] at h ⊢
                  exact ih f2 _ x hf h
    | loopBits pos endIdx acc =>
      rw [p1run_loopBits] at h ⊢
      by_cases hlt : pos < endIdx
      · rw [if_pos hlt] at h ⊢
        cases hch : p1run data fuel (.packet pos) with
        | none => rw [hch] at h; simp at h
        | some y =>
          rw [ih f2 (.packet pos) y hf hch]
          rw [hch] at h
          cases y with
          | error e => exact h
          | ok p =>
            obtain ⟨v1, q1⟩ := p
            simp only [bind1_ok] at h ⊢
            exact ih f2 _ x hf h
      · rw [if_neg hlt] at h ⊢; exact h
    | loopCount pos n acc =>
      cases n with
      | zero => rw [p1run_loopCount_zero] at h ⊢; exact h
      | succ m =>
        rw [p1run_loopCount_succ] at h ⊢
        cases hch : p1run data fuel (.packet pos) with
        | none => rw [hch] at h; simp at h
        | some y =>
          rw [ih f2 (.packet pos) y hf hch]
          rw [hch] at h
          cases y with
          | error e => exact h
          | ok p =>
            obtain ⟨v1, q1⟩ := p
            simp only [bind1_ok] at h ⊢
            exact ih f2 _ x hf h

theorem p1run_suff (data : List Nat) :
    ∀ fuel,
      (∀ pos, 2 * (8 * data.length + 1 - pos) < fuel →
        p1run data fuel (.packet pos) ≠ none) ∧
      (∀ pos endIdx acc, 2 * (8 * data.length + 1 - pos) + 1 < fuel →
        p1run data fuel (.loopBits pos endIdx acc) ≠ none) ∧
      (∀ pos n acc, 2 * (8 * data.length + 1 - pos) + 1 < fuel →
        p1run data fuel (.loopCount pos n acc) ≠ none) := by
  intro fuel
  induction fuel with
  | zero =>
    exact ⟨fun pos h => absurd h (by omega),
      fun pos endIdx acc h => absurd h (by omega),
      fun pos n acc h => absurd h (by omega)⟩
  | succ fuel ih =>
    obtain ⟨ihP, ihB, ihC⟩ := ih
    refine ⟨?_, ?_, ?_⟩
    · intro pos hmu
      rw [p1run_packet]
      cases h3 : read_bits data pos 3 with
      | error e => simp
      | ok p =>
        obtain ⟨ver, pos1⟩ := p
        obtain ⟨hq1, hb1, -⟩ := read_bits_ok data pos 3 ver pos1 h3
        simp only [liftE_ok]
        cases h4 : read_bits data pos1 3 with
        | error e => simp
        | ok p =>
          obtain ⟨tid, pos2⟩ := p
          obtain ⟨hq2, hb2, -⟩ := read_bits_ok data pos1 3 tid pos2 h4
          simp only [liftE_ok]
          by_cases ht : tid = TYPE_ID_LITERAL
          · rw [if_pos ht]
            cases hlit : read_compressed_literal data pos2 with
            | error e => simp
            | ok p => obtain ⟨lit, pos3⟩ := p; simp
          · rw [if_neg ht]
            cases h5 : read_bits data pos2 1 with
            | error e => simp
            | ok p =>
              obtain ⟨ltid, pos3⟩ := p
              obtain ⟨hq3, hb3, -⟩ := read_bits_ok data pos2 1 ltid pos3 h5
              simp only [liftE_ok]
              by_cases hltid : ltid = LENGTH_TYPE_ID_BIT_COUNT
              · rw [if_pos hltid]
                cases h6 : read_bits data pos3 15 with
                | error e => simp
                | ok p =>
                  obtain ⟨tbl, pos4⟩ := p
                  obtain ⟨hq4, hb4, -⟩ := read_bits_ok data pos3 15 tbl pos4 h6
                  simp only [liftE_ok]
                  exact ihB pos4 (pos4 + tbl) ver (by omega)
              · rw [if_neg hltid]
                cases h6 : read_bits data pos3 11 with
                | error e => simp
                | ok p =>
                  obtain ⟨cnt, pos4⟩ := p
                  obtain ⟨hq4, hb4, -⟩ := read_bits_ok data pos3 11 cnt pos4 h6
                  simp only [liftE_ok]
                  exact ihC pos4 cnt ver (by omega)
    · intro pos endIdx acc hmu
      rw [p1run_loopBits]
      by_cases hlt : pos < endIdx
      · rw [if_pos hlt]
        cases hch : p1run data fuel (.packet pos) with
        | none => exact absurd hch (ihP pos (by omega))
        | some x =>
          cases x with
          | error e => simp
          | ok p =>
            obtain ⟨v1, q1⟩ := p
            simp only [bind1_ok]
            have hpr := (p1run_progress data fuel).1 pos v1 q1 hch
            exact ihB q1 endIdx ((acc + v1) % U64) (by omega)
      · rw [if_neg hlt]; simp
    · intro pos n acc hmu
      cases n with
      | zero => rw [p1run_loopCount_zero]; simp
      | succ m =>
        rw [p1run_loopCount_succ]
        cases hch : p1run data fuel (.packet pos) with
        | none => exact absurd hch (ihP pos (by omega))
        | some x =>
          cases x with
          | error e => simp
          | ok p =>
            obtain ⟨v1, q1⟩ := p
            simp only [bind1_ok]
            have hpr := (p1run_progress data fuel).1 pos v1 q1 hch
            exact ihC q1 m ((acc + v1) % U64) (by omega)

theorem p1run_append (data ext : List Nat) :
    ∀ fuel c v q, p1run data fuel c = some (.ok (v, q)) →
      p1run (data ++ ext) fuel c = some (.ok (v, q)) := by
  intro fuel
  induction fuel with
  | zero => intro c v q h; simp [p1run] at h
  | succ fuel ih =>
    intro c v q h
    cases c with
    | packet pos =>
      rw [p1run_packet] at h ⊢
      cases h3 : read_bits data pos 3 with
      | error e => simp [h3] at h
      | ok p =>
        obtain ⟨ver, pos1⟩ := p
        simp only [h3, liftE_ok] at h
        simp only [read_bits_append data ext pos 3 ver pos1 h3, liftE_ok]
        cases h4 : read_bits data pos1 3 with
        | error e => simp [h4] at h
        | ok p =>
          obtain ⟨tid, pos2⟩ := p
          simp only [h4, liftE_ok] at h
          simp only [read_bits_append data ext pos1 3 tid pos2 h4, liftE_ok]
          by_cases ht : tid = TYPE_ID_LITERAL
          · rw [if_pos ht] at h ⊢
            cases hlit : read_compressed_literal data pos2 with
            | error e => simp [hlit] at h
            | ok p =>
              obtain ⟨lit, pos3⟩ := p
              simp only [hlit, liftE_ok] at h
              simp only [read_compressed_literal_append data ext pos2 lit pos3 hlit, liftE_ok]
              exact h
          · rw [if_neg ht] at h ⊢
            cases h5 : read_bits data pos2 1 with
            | error e => simp [h5] at h
            | ok p =>
              obtain ⟨ltid, pos3⟩ := p
              simp only [h5, liftE_ok] at h
              simp only [read_bits_append data ext pos2 1 ltid pos3 h5, liftE_ok]
              by_cases hltid : ltid = LENGTH_TYPE_ID_BIT_COUNT
              · rw [if_pos hltid] at h ⊢
                cases h6 : read_bits data pos3 15 with
                | error e => simp [h6] at h
                | ok p =>
                  obtain ⟨tbl, pos4⟩ := p
                  simp only [h6, liftE_ok] at h
                  simp only [read_bits_append data ext pos3 15 tbl pos4 h6, liftE_ok]
                  exact ih _ v q h
              · rw [if_neg hltid] at h ⊢
                cases h6 : read_bits data pos3 11 with
                | error e => simp [h6] at h
                | ok p =>
                  obtain ⟨cnt, pos4⟩ := p
                  simp only [h6, liftE_ok] at h
                  simp only [read_bits_append data ext pos3 11 cnt pos4 h6, liftE_ok]
                  exact ih _ v q h
    | loopBits pos endIdx acc =>
      rw [p1run_loopBits] at h ⊢
      by_cases hlt : pos < endIdx
      · rw [if_pos hlt] at h ⊢
        cases hch : p1run data fuel (.packet pos) with
        | none => simp [hch] at h
        | some x =>
          cases x with
          | error e => simp [hch] at h
          | ok p =>
            obtain ⟨v1, q1⟩ := p
            simp only [hch, bind1_ok] at h
            rw [ih (.packet pos) v1 q1 hch]
            simp only [bind1_ok]
            exact ih _ v q h
      · rw [if_neg hlt] at h ⊢; exact h
    | loopCount pos n acc =>
      cases n with
      | zero => rw [p1run_loopCount_zero] at h ⊢; exact h
      | succ m =>
        rw [p1run_loopCount_succ] at h ⊢
        cases hch : p1run data fuel (.packet pos) with
        | none => simp [hch] at h
        | some x =>
          cases x with
          | error e => simp [hch] at h
          | ok p =>
            obtain ⟨v1, q1⟩ := p
            simp only [hch, bind1_ok] at h
            rw [ih (.packet pos) v1 q1 hch]
            simp only [bind1_ok]
            exact ih _ v q h

/-! ## Refinement of the part1 decoder against the version-sum specification -/

theorem specVS_packet_shape (data : List Nat) (fuel pos : Nat) (vs : List Nat) (q : Nat)
    (h : specVS data fuel (.packet pos) = some (.ok (vs, q))) : ∃ v, vs = [v] := by
  cases fuel with
  | zero => simp [specVS] at h
  | succ fuel =>
    rw [specVS_packet] at h
    cases h3 : read_bits data pos 3 with
    | error e => simp [h3] at h
    | ok p =>
      obtain ⟨ver, pos1⟩ := p
      simp only [h3, liftE_ok] at h
      cases h4 : read_bits data pos1 3 with
      | error e => simp [h4] at h
      | ok p =>
        obtain ⟨tid, pos2⟩ := p
        simp only [h4, liftE_ok] at h
        by_cases ht : tid = TYPE_ID_LITERAL
        · rw [if_pos ht] at h
          cases hlit : read_compressed_literal data pos2 with
          | error e => simp [hlit] at h
          | ok p =>
            obtain ⟨lit, pos3⟩ := p
            simp only [hlit, liftE_ok, Option.some.injEq, Except.ok.injEq, Prod.mk.injEq] at h
            exact ⟨ver, h.1.symm⟩
        · rw [if_neg ht] at h
          cases h5 : read_bits data pos2 1 with
          | error e => simp [h5] at h
          | ok p =>
            obtain ⟨ltid, pos3⟩ := p
            simp only [h5, liftE_ok] at h
            by_cases hltid : ltid = LENGTH_TYPE_ID_BIT_COUNT
            · rw [if_pos hltid] at h
              cases h6 : read_bits data pos3 15 with
              | error e => simp [h6] at h
              | ok p =>
                obtain ⟨tbl, pos4⟩ := p
                simp only [h6, liftE_ok] at h
                cases hs : specVS data fuel (.loopBits pos4 (pos4 + tbl)) with
                | none => simp [hs] at h
                | some y =>
                  cases y with
                  | error e => simp [hs] at h
                  | ok p =>
                    obtain ⟨cs, r⟩ := p
                    simp only [hs, bindS_ok, Option.some.injEq, Except.ok.injEq,
                      Prod.mk.injEq] at h
                    exact ⟨_, h.1.symm⟩
            · rw [if_neg hltid] at h
              cases h6 : read_bits data pos3 11 with
              | error e => simp [h6] at h
              | ok p =>
                obtain ⟨cnt, pos4⟩ := p
                simp only [h6, liftE_ok] at h
                cases hs : specVS data fuel (.loopCount pos4 cnt) with
                | none => simp [hs] at h
                | some y =>
                  cases y with
                  | error e => simp [hs] at h
                  | ok p =>
                    obtain ⟨cs, r⟩ := p
                    simp only [hs, bindS_ok, Option.some.injEq, Except.ok.injEq,
                      Prod.mk.injEq] at h
                    exact ⟨_, h.1.symm⟩

theorem p1run_eq_specVS (data : List Nat) :
    ∀ fuel,
      (∀ pos, p1run data fuel (.packet pos) = vsLiftP (specVS data fuel (.packet pos))) ∧
      (∀ pos endIdx acc, acc < U64 →
        p1run data fuel (.loopBits pos endIdx acc)
          = vsLiftL acc (specVS data fuel (.loopBits pos endIdx))) ∧
      (∀ pos n acc, acc < U64 →
        p1run data fuel (.loopCount pos n acc)
          = vsLiftL acc (specVS data fuel (.loopCount pos n))) := by
  have hU : 0 < U64 := by norm_num [U64]
  intro fuel
  induction fuel with
  | zero => exact ⟨fun pos => rfl, fun pos endIdx acc _ => rfl, fun pos n acc _ => rfl⟩
  | succ fuel ih =>
    obtain ⟨ihP, ihB, ihC⟩ := ih
    refine ⟨?_, ?_, ?_⟩
    · intro pos
      rw [p1run_packet, specVS_packet]
      cases h3 : read_bits data pos 3 with
      | error e => simp
      | ok p =>
        obtain ⟨ver, pos1⟩ := p
        have hver : ver < U64 := by
          have h1 := read_bits_lt data pos 3 ver pos1 h3
          have h2 : (2 : Nat) ^ 3 ≤ U64 := by norm_num [U64]
          omega
        simp only [liftE_ok]
        cases h4 : read_bits data pos1 3 with
        | error e => simp
        | ok p =>
          obtain ⟨tid, pos2⟩ := p
          simp only [liftE_ok]
          by_cases ht : tid = TYPE_ID_LITERAL
          · rw [if_pos ht, if_pos ht]
            cases hlit : read_compressed_literal data pos2 with
            | error e => simp
            | ok p =>
              obtain ⟨lit, pos3⟩ := p
              simp
          · rw [if_neg ht, if_neg ht]
            cases h5 : read_bits data pos2 1 with
            | error e => simp
            | ok p =>
              obtain ⟨ltid, pos3⟩ := p
              simp only [liftE_ok]
              by_cases hltid : ltid = LENGTH_TYPE_ID_BIT_COUNT
              · rw [if_pos hltid, if_pos hltid]
                cases h6 : read_bits data pos3 15 with
                | error e => simp
                | ok p =>
                  obtain ⟨tbl, pos4⟩ := p
                  simp only [liftE_ok]
                  rw [ihB pos4 (pos4 + tbl) ver hver]
                  cases hs : specVS data fuel (.loopBits pos4 (pos4 + tbl)) with
                  | none => simp
                  | some y =>
                    cases y with
                    | error e => simp
                    | ok p =>
                      obtain ⟨cs, r⟩ := p
                      simp
              · rw [if_neg hltid, if_neg hltid]
                cases h6 : read_bits data pos3 11 with
                | error e => simp
                | ok p =>
                  obtain ⟨cnt, pos4⟩ := p
                  simp only [liftE_ok]
                  rw [ihC pos4 cnt ver hver]
                  cases hs : specVS data fuel (.loopCount pos4 cnt) with
                  | none => simp
                  | some y =>
                    cases y with
                    | error e => simp
                    | ok p =>
                      obtain ⟨cs, r⟩ := p
                      simp
    · intro pos endIdx acc hacc
      rw [p1run_loopBits, specVS_loopBits]
      by_cases hlt : pos < endIdx
      · rw [if_pos hlt, if_pos hlt]
        rw [ihP pos]
        cases hs : specVS data fuel (.packet pos) with
        | none => simp
        | some y =>
          cases y with
          | error e => simp
          | ok p =>
            obtain ⟨vs, q1⟩ := p
            obtain ⟨v1, rfl⟩ := specVS_packet_shape data fuel pos vs q1 hs
            simp only [vsLiftP_ok, bindS_ok, bind1_ok, List.headD_cons]
            rw [ihB q1 endIdx ((acc + v1) % U64) (Nat.mod_lt _ hU)]
            cases hs2 : specVS data fuel (.loopBits q1 endIdx) with
            | none => simp
            | some y2 =>
              cases y2 with
              | error e => simp
              | ok p2 =>
                obtain ⟨cs, r⟩ := p2
                simp only [vsLiftL_ok, bindS_ok, Option.some.injEq, Except.ok.injEq,
                  Prod.mk.injEq, List.sum_append, List.sum_cons, List.sum_nil]
                exact ⟨by rw [Nat.mod_add_mod]; congr 1; omega, trivial⟩
      · rw [if_neg hlt, if_neg hlt]
        simp [Nat.mod_eq_of_lt hacc]
    · intro pos n acc hacc
      cases n with
      | zero =>
        rw [p1run_loopCount_zero, specVS_loopCount_zero]
        simp [Nat.mod_eq_of_lt hacc]
      | succ m =>
        rw [p1run_loopCount_succ, specVS_loopCount_succ]
        rw [ihP pos]
        cases hs : specVS data fuel (.packet pos) with
        | none => simp
        | some y =>
          cases y with
          | error e => simp
          | ok p =>
            obtain ⟨vs, q1⟩ := p
            obtain ⟨v1, rfl⟩ := specVS_packet_shape data fuel pos vs q1 hs
            simp only [vsLiftP_ok, bindS_ok, bind1_ok, List.headD_cons]
            rw [ihC q1 m ((acc + v1) % U64) (Nat.mod_lt _ hU)]
            cases hs2 : specVS data fuel (.loopCount q1 m) with
            | none => simp
            | some y2 =>
              cases y2 with
              | error e => simp
              | ok p2 =>
                obtain ⟨cs, r⟩ := p2
                simp only [vsLiftL_ok, bindS_ok, Option.some.injEq, Except.ok.injEq,
                  Prod.mk.injEq, List.sum_append, List.sum_cons, List.sum_nil]
                exact ⟨by rw [Nat.mod_add_mod]; congr 1; omega, trivial⟩

/-! ## Reduction and aggregation lemmas for the part2 decoder -/

theorem p2run_packet (data : List Nat) (fuel pos : Nat) (stack : List Nat) :
    p2run data (fuel + 1) (.packet pos stack) =
      (liftP (read_bits data pos 3) fun (_version, pos1) =>
       liftP (read_bits data pos1 3) fun (type_id, pos2) =>
       if type_id = TYPE_ID_LITERAL then
         liftP (read_compressed_literal data pos2) fun (lit, pos3) =>
         some (.ok lit pos3 stack)
       else
         liftP (read_bits data pos2 1) fun (length_type_id, pos3) =>
         if length_type_id = LENGTH_TYPE_ID_BIT_COUNT then
           liftP (read_bits data pos3 15) fun (total_bit_length, pos4) =>
           bindP (p2run data fuel (.loopBits pos4 (pos4 + total_bit_length) stack 0))
             fun opc pos5 stack5 => some (p2finish type_id opc pos5 stack5)
         else
           liftP (read_bits data pos3 11) fun (operand_count, pos4) =>
           bindP (p2run data fuel (.loopCount pos4 operand_count stack))
             fun _ pos5 stack5 => some (p2finish type_id operand_count pos5 stack5)) := rfl

theorem p2run_loopBits (data : List Nat) (fuel pos endIdx : Nat) (stack : List Nat) (opc : Nat) :
    p2run data (fuel + 1) (.loopBits pos endIdx stack opc) =
      if pos < endIdx then
        bindP (p2run data fuel (.packet pos stack)) fun v q stack1 =>
          p2run data fuel (.loopBits q endIdx (stack1 ++ [v]) (opc + 1))
      else some (.ok opc pos stack) := rfl

theorem p2run_loopCount_zero (data : List Nat) (fuel pos : Nat) (stack : List Nat) :
    p2run data (fuel + 1) (.loopCount pos 0 stack) = some (.ok 0 pos stack) := rfl

theorem p2run_loopCount_succ (data : List Nat) (fuel pos m : Nat) (stack : List Nat) :
    p2run data (fuel + 1) (.loopCount pos (m + 1) stack) =
      (bindP (p2run data fuel (.packet pos stack)) fun v q stack1 =>
        p2run data fuel (.loopCount q m (stack1 ++ [v]))) := rfl

theorem specEval_packet (data : List Nat) (fuel pos : Nat) :
    specEval data (fuel + 1) (.packet pos) =
      (liftR (read_bits data pos 3) fun (_version, pos1) =>
       liftR (read_bits data pos1 3) fun (type_id, pos2) =>
       if type_id = TYPE_ID_LITERAL then
         liftR (read_compressed_literal data pos2) fun (lit, pos3) =>
         some (.ok [lit] pos3)
       else
         liftR (read_bits data pos2 1) fun (length_type_id, pos3) =>
         if length_type_id = LENGTH_TYPE_ID_BIT_COUNT then
           liftR (read_bits data pos3 15) fun (total_bit_length, pos4) =>
           bindR (specEval data fuel (.loopBits pos4 (pos4 + total_bit_length)))
             fun cs q => some (specAggRes type_id cs q)
         else
           liftR (read_bits data pos3 11) fun (operand_count, pos4) =>
           bindR (specEval data fuel (.loopCount pos4 operand_count))
             fun cs q => some (specAggRes type_id cs q)) := rfl

theorem specEval_loopBits (data : List Nat) (fuel pos endIdx : Nat) :
    specEval data (fuel + 1) (.loopBits pos endIdx) =
      if pos < endIdx then
        bindR (specEval data fuel (.packet pos)) fun vs q =>
        bindR (specEval data fuel (.loopBits q endIdx)) fun cs r =>
        some (.ok (vs ++ cs) r)
      else some (.ok [] pos) := rfl

theorem specEval_loopCount_zero (data : List Nat) (fuel pos : Nat) :
    specEval data (fuel + 1) (.loopCount pos 0) = some (.ok [] pos) := rfl

theorem specEval_loopCount_succ (data : List Nat) (fuel pos m : Nat) :
    specEval data (fuel + 1) (.loopCount pos (m + 1)) =
      (bindR (specEval data fuel (.packet pos)) fun vs q =>
       bindR (specEval data fuel (.loopCount q m)) fun cs r =>
       some (.ok (vs ++ cs) r)) := rfl

theorem p2finish_pos (t opc pos : Nat) (stack : List Nat) (v q : Nat) (st : List Nat)
    (h : p2finish t opc pos stack = .ok v q st) : q = pos := by
  simp only [p2finish] at h
  by_cases h0 : t = TYPE_ID_SUM
  · rw [if_pos h0] at h
    simp only [P2Res.ok.injEq] at h
    exact h.2.1.symm
  · rw [if_neg h0] at h
    by_cases h1 : t = TYPE_ID_PRODUCT
    · rw [if_pos h1] at h
      simp only [P2Res.ok.injEq] at h
      exact h.2.1.symm
    · rw [if_neg h1] at h
      by_cases h2 : t = TYPE_ID_MIN
      · rw [if_pos h2] at h
        cases hmin : (stack.drop (stack.length - opc)).min? with
        | none => simp only [hmin] at h; simp at h
        | some m =>
          simp only [hmin, P2Res.ok.injEq] at h
          exact h.2.1.symm
      · rw [if_neg h2] at h
        by_cases h3 : t = TYPE_ID_MAX
        · rw [if_pos h3] at h
          cases hmax : (stack.drop (stack.length - opc)).max? with
          | none => simp only [hmax] at h; simp at h
          | some m =>
            simp only [hmax, P2Res.ok.injEq] at h
            exact h.2.1.symm
        · rw [if_neg h3] at h
          by_cases h5 : t = TYPE_ID_GT
          · rw [if_pos h5] at h
            cases hd : stack.drop (stack.length - opc) with
            | nil => simp only [hd] at h; simp at h
            | cons a rest =>
              cases rest with
              | nil => simp only [hd] at h; simp at h
              | cons b rest2 =>
                simp only [hd, P2Res.ok.injEq] at h
                exact h.2.1.symm
          · rw [if_neg h5] at h
            by_cases h6 : t = TYPE_ID_LT
            · rw [if_pos h6] at h
              cases hd : stack.drop (stack.length - opc) with
              | nil => simp only [hd] at h; simp at h
              | cons a rest =>
                cases rest with
                | nil => simp only [hd] at h; simp at h
                | cons b rest2 =>
                  simp only [hd, P2Res.ok.injEq] at h
                  exact h.2.1.symm
            · rw [if_neg h6] at h
              by_cases h7 : t = TYPE_ID_EQ
              · rw [if_pos h7] at h
                cases hd : stack.drop (stack.length - opc) with
                | nil => simp only [hd] at h; simp at h
                | cons a rest =>
                  cases rest with
                  | nil => simp only [hd] at h; simp at h
                  | cons b rest2 =>
                    simp only [hd, P2Res.ok.injEq] at h
                    exact h.2.1.symm
              · rw [if_neg h7] at h
                simp at h

theorem sum_foldl_mod : ∀ (cs : List Nat) (a : Nat),
    cs.foldl (fun x y => (x + y) % U64) (a % U64) = (a + cs.sum) % U64 := by
  intro cs
  induction cs with
  | nil => intro a; simp
  | cons c cs ih =>
    intro a
    simp only [List.foldl_cons, List.sum_cons]
    rw [Nat.mod_add_mod, ih (a + c)]
    congr 1
    omega

theorem prod_foldl_mod : ∀ (cs : List Nat) (a : Nat),
    cs.foldl (fun x y => (x * y) % U64) (a % U64) = (a * cs.prod) % U64 := by
  intro cs
  induction cs with
  | nil => intro a; simp
  | cons c cs ih =>
    intro a
    simp only [List.foldl_cons, List.prod_cons]
    rw [Nat.mod_mul_mod, ih (a * c)]
    congr 1
    rw [Nat.mul_assoc]

theorem p2finish_agg (t : Nat) (cs : List Nat) (pos : Nat) (stack : List Nat) :
    some (p2finish t cs.length pos (stack ++ cs)) = evLiftP stack (some (specAggRes t cs pos)) := by
  have hdrop : (stack ++ cs).drop ((stack ++ cs).length - cs.length) = cs := by
    rw [List.length_append]
    exact List.drop_left' (by omega)
  have htake : (stack ++ cs).take ((stack ++ cs).length - cs.length) = stack := by
    rw [List.length_append]
    exact List.take_left' (by omega)
  simp only [p2finish, specAggRes, hdrop, htake]
  by_cases h0 : t = TYPE_ID_SUM
  · rw [if_pos h0, if_pos h0]
    have hs := sum_foldl_mod cs 0
    simp only [Nat.zero_mod, Nat.zero_add] at hs
    rw [hs]
    simp
  · rw [if_neg h0, if_neg h0]
    by_cases h1 : t = TYPE_ID_PRODUCT
    · rw [if_pos h1, if_pos h1]
      have h1m : (1 : Nat) % U64 = 1 := Nat.mod_eq_of_lt (by norm_num [U64])
      have hp := prod_foldl_mod cs 1
      rw [h1m, Nat.one_mul] at hp
      rw [hp]
      simp
    · rw [if_neg h1, if_neg h1]
      by_cases h2 : t = TYPE_ID_MIN
      · rw [if_pos h2, if_pos h2]
        cases hmin : cs.min? with
        | none => simp
        | some m => simp
      · rw [if_neg h2, if_neg h2]
        by_cases h3 : t = TYPE_ID_MAX
        · rw [if_pos h3, if_pos h3]
          cases hmax : cs.max? with
          | none => simp
          | some m => simp
        · rw [if_neg h3, if_neg h3]
          by_cases h5 : t = TYPE_ID_GT
          · rw [if_pos h5, if_pos h5]
            cases cs with
            | nil => simp
            | cons a rest =>
              cases rest with
              | nil => simp
              | cons b rest2 => simp
          · rw [if_neg h5, if_neg h5]
            by_cases h6 : t = TYPE_ID_LT
            · rw [if_pos h6, if_pos h6]
              cases cs with
              | nil => simp
              | cons a rest =>
                cases rest with
                | nil => simp
                | cons b rest2 => simp
            · rw [if_neg h6, if_neg h6]
              by_cases h7 : t = TYPE_ID_EQ
              · rw [if_pos h7, if_pos h7]
                cases cs with
                | nil => simp
                | cons a rest =>
                  cases rest with
                  | nil => simp
                  | cons b rest2 => simp
              · rw [if_neg h7, if_neg h7]
                simp

theorem specAggRes_shape (t : Nat) (cs : List Nat) (pos : Nat) (vs : List Nat) (q : Nat)
    (h : specAggRes t cs pos = .ok vs q) : ∃ v, vs = [v] := by
  simp only [specAggRes] at h
  by_cases h0 : t = TYPE_ID_SUM
  · rw [if_pos h0] at h
    simp only [SRes.ok.injEq] at h
    exact ⟨_, h.1.symm⟩
  · rw [if_neg h0] at h
    by_cases h1 : t = TYPE_ID_PRODUCT
    · rw [if_pos h1] at h
      simp only [SRes.ok.injEq] at h
      exact ⟨_, h.1.symm⟩
    · rw [if_neg h1] at h
      by_cases h2 : t = TYPE_ID_MIN
      · rw [if_pos h2] at h
        cases hmin : cs.min? with
        | none => simp only [hmin] at h; simp at h
        | some m =>
          simp only [hmin, SRes.ok.injEq] at h
          exact ⟨_, h.1.symm⟩
      · rw [if_neg h2] at h
        by_cases h3 : t = TYPE_ID_MAX
        · rw [if_pos h3] at h
          cases hmax : cs.max? with
          | none => simp only [hmax] at h; simp at h
          | some m =>
            simp only [hmax, SRes.ok.injEq] at h
            exact ⟨_, h.1.symm⟩
        · rw [if_neg h3] at h
          by_cases h5 : t = TYPE_ID_GT
          · rw [if_pos h5] at h
            cases hd : cs with
            | nil => simp only [hd] at h; simp at h
            | cons a rest =>
              cases rest with
              | nil => simp only [hd] at h; simp at h
              | cons b rest2 =>
                simp only [hd, SRes.ok.injEq] at h
                exact ⟨_, h.1.symm⟩
          · rw [if_neg h5] at h
            by_cases h6 : t = TYPE_ID_LT
            · rw [if_pos h6] at h
              cases hd : cs with
              | nil => simp only [hd] at h; simp at h
              | cons a rest =>
                cases rest with
                | nil => simp only [hd] at h; simp at h
                | cons b rest2 =>
                  simp only [hd, SRes.ok.injEq] at h
                  exact ⟨_, h.1.symm⟩
            · rw [if_neg h6] at h
              by_cases h7 : t = TYPE_ID_EQ
              · rw [if_pos h7] at h
                cases hd : cs with
                | nil => simp only [hd] at h; simp at h
                | cons a rest =>
                  cases rest with
                  | nil => simp only [hd] at h; simp at h
                  | cons b rest2 =>
                    simp only [hd, SRes.ok.injEq] at h
                    exact ⟨_, h.1.symm⟩
              · rw [if_neg h7] at h
                simp at h

theorem specEval_packet_shape (data : List Nat) (fuel pos : Nat) (vs : List Nat) (q : Nat)
    (h : specEval data fuel (.packet pos) = some (.ok vs q)) : ∃ v, vs = [v] := by
  cases fuel with
  | zero => simp [specEval] at h
  | succ fuel =>
    rw [specEval_packet] at h
    cases h3 : read_bits data pos 3 with
    | error e => simp [h3] at h
    | ok p =>
      obtain ⟨ver, pos1⟩ := p
      simp only [h3, liftR_ok] at h
      cases h4 : read_bits data pos1 3 with
      | error e => simp [h4] at h
      | ok p =>
        obtain ⟨tid, pos2⟩ := p
        simp only [h4, liftR_ok] at h
        by_cases ht : tid = TYPE_ID_LITERAL
        · rw [if_pos ht] at h
          cases hlit : read_compressed_literal data pos2 with
          | error e => simp [hlit] at h
          | ok p =>
            obtain ⟨lit, pos3⟩ := p
            simp only [hlit, liftR_ok, Option.some.injEq, SRes.ok.injEq] at h
            exact ⟨lit, h.1.symm⟩
        · rw [if_neg ht] at h
          cases h5 : read_bits data pos2 1 with
          | error e => simp [h5] at h
          | ok p =>
            obtain ⟨ltid, pos3⟩ := p
            simp only [h5, liftR_ok] at h
            by_cases hltid : ltid = LENGTH_TYPE_ID_BIT_COUNT
            · rw [if_pos hltid] at h
              cases h6 : read_bits data pos3 15 with
              | error e => simp [h6] at h
              | ok p =>
                obtain ⟨tbl, pos4⟩ := p
                simp only [h6, liftR_ok] at h
                cases hs : specEval data fuel (.loopBits pos4 (pos4 + tbl)) with
                | none => simp [hs] at h
                | some y =>
                  cases y with
                  | err e => simp [hs] at h
                  | panicked => simp [hs] at h
                  | ok cs r =>
                    simp only [hs, bindR_ok, Option.some.injEq] at h
                    exact specAggRes_shape tid cs r vs q h
            · rw [if_neg hltid] at h
              cases h6 : read_bits data pos3 11 with
              | error e => simp [h6] at h
              | ok p =>
                obtain ⟨cnt, pos4⟩ := p
                simp only [h6, liftR_ok] at h
                cases hs : specEval data fuel (.loopCount pos4 cnt) with
                | none => simp [hs] at h
                | some y =>
                  cases y with
                  | err e => simp [hs] at h
                  | panicked => simp [hs] at h
                  | ok cs r =>
                    simp only [hs, bindR_ok, Option.some.injEq] at h
                    exact specAggRes_shape tid cs r vs q h

theorem specEval_loopCount_length (data : List Nat) :
    ∀ fuel pos n cs q, specEval data fuel (.loopCount pos n) = some (.ok cs q) →
      cs.length = n := by
  intro fuel
  induction fuel with
  | zero => intro pos n cs q h; simp [specEval] at h
  | succ fuel ih =>
    intro pos n cs q h
    cases n with
    | zero =>
      rw [specEval_loopCount_zero] at h
      simp only [Option.some.injEq, SRes.ok.injEq] at h
      rw [← h.1]
      rfl
    | succ m =>
      rw [specEval_loopCount_succ] at h
      cases hs : specEval data fuel (.packet pos) with
      | none => simp [hs] at h
      | some y =>
        cases y with
        | err e => simp [hs] at h
        | panicked => simp [hs] at h
        | ok vs q1 =>
          obtain ⟨v1, rfl⟩ := specEval_packet_shape data fuel pos vs q1 hs
          simp only [hs, bindR_ok] at h
          cases hs2 : specEval data fuel (.loopCount q1 m) with
          | none => simp [hs2] at h
          | some y2 =>
            cases y2 with
            | err e => simp [hs2] at h
            | panicked => simp [hs2] at h
            | ok cs2 r =>
              simp only [hs2, bindR_ok, Option.some.injEq, SRes.ok.injEq] at h
              have hlen := ih q1 m cs2 r hs2
              rw [← h.1]
              simp only [List.singleton_append, List.length_cons]
              omega

theorem p2run_progress (data : List Nat) :
    ∀ fuel,
      (∀ pos stack v q st, p2run data fuel (.packet pos stack) = some (.ok v q st) →
        pos < q ∧ q ≤ 8 * data.length) ∧
      (∀ pos endIdx stack opc v q st,
        p2run data fuel (.loopBits pos endIdx stack opc) = some (.ok v q st) →
        pos ≤ q ∧ (pos ≤ 8 * data.length → q ≤ 8 * data.length)) ∧
      (∀ pos n stack v q st, p2run data fuel (.loopCount pos n stack) = some (.ok v q st) →
        pos ≤ q ∧ (pos ≤ 8 * data.length → q ≤ 8 * data.length)) := by
  intro fuel
  induction fuel with
  | zero =>
    exact ⟨fun pos stack v q st h => by simp [p2run] at h,
      fun pos endIdx stack opc v q st h => by simp [p2run] at h,
      fun pos n stack v q st h => by simp [p2run] at h⟩
  | succ fuel ih =>
    obtain ⟨ihP, ihB, ihC⟩ := ih
    refine ⟨?_, ?_, ?_⟩
    · intro pos stack v q st h
      rw [p2run_packet] at h
      cases h3 : read_bits data pos 3 with
      | error e => simp [h3] at h
      | ok p =>
        obtain ⟨ver, pos1⟩ := p
        obtain ⟨hq1, hb1, -⟩ := read_bits_ok data pos 3 ver pos1 h3
        simp only [h3, liftP_ok] at h
        cases h4 : read_bits data pos1 3 with
        | error e => simp [h4] at h
        | ok p =>
          obtain ⟨tid, pos2⟩ := p
          obtain ⟨hq2, hb2, -⟩ := read_bits_ok data pos1 3 tid pos2 h4
          simp only [h4, liftP_ok] at h
          by_cases ht : tid = TYPE_ID_LITERAL
          · rw [if_pos ht] at h
            cases hlit : read_compressed_literal data pos2 with
            | error e => simp [hlit] at h
            | ok p =>
              obtain ⟨lit, pos3⟩ := p
              obtain ⟨hl1, hl2⟩ := read_compressed_literal_ok data pos2 lit pos3 hlit
              simp only [hlit, liftP_ok, Option.some.injEq, P2Res.ok.injEq] at h
              obtain ⟨-, hq, -⟩ := h
              omega
          · rw [if_neg ht] at h
            cases h5 : read_bits data pos2 1 with
            | error e => simp [h5] at h
            | ok p =>
              obtain ⟨ltid, pos3⟩ := p
              obtain ⟨hq3, hb3, -⟩ := read_bits_ok data pos2 1 ltid pos3 h5
              simp only [h5, liftP_ok] at h
              by_cases hltid : ltid = LENGTH_TYPE_ID_BIT_COUNT
              · rw [if_pos hltid] at h
                cases h6 : read_bits data pos3 15 with
                | error e => simp [h6] at h
                | ok p =>
                  obtain ⟨tbl, pos4⟩ := p
                  obtain ⟨hq4, hb4, -⟩ := read_bits_ok data pos3 15 tbl pos4 h6
                  simp only [h6, liftP_ok] at h
                  cases hch : p2run data fuel (.loopBits pos4 (pos4 + tbl) stack 0) with
                  | none => simp [hch] at h
                  | some x =>
                    cases x with
                    | err e => simp [hch] at h
                    | panicked => simp [hch] at h
                    | ok a q5 st5 =>
                      simp only [hch, bindP_ok, Option.some.injEq] at h
                      have hqq := p2finish_pos tid a q5 st5 v q st h
                      have hpr := ihB pos4 (pos4 + tbl) stack 0 a q5 st5 hch
                      omega
              · rw [if_neg hltid] at h
                cases h6 : read_bits data pos3 11 with
                | error e => simp [h6] at h
                | ok p =>
                  obtain ⟨cnt, pos4⟩ := p
                  obtain ⟨hq4, hb4, -⟩ := read_bits_ok data pos3 11 cnt pos4 h6
                  simp only [h6, liftP_ok] at h
                  cases hch : p2run data fuel (.loopCount pos4 cnt stack) with
                  | none => simp [hch] at h
                  | some x =>
                    cases x with
                    | err e => simp [hch] at h
                    | panicked => simp [hch] at h
                    | ok a q5 st5 =>
                      simp only [hch, bindP_ok, Option.some.injEq] at h
                      have hqq := p2finish_pos tid cnt q5 st5 v q st h
                      have hpr := ihC pos4 cnt stack a q5 st5 hch
                      omega
    · intro pos endIdx stack opc v q st h
      rw [p2run_loopBits] at h
      by_cases hlt : pos < endIdx
      · rw [if_pos hlt] at h
        cases hch : p2run data fuel (.packet pos stack) with
        | none => simp [hch] at h
        | some x =>
          cases x with
          | err e => simp [hch] at h
          | panicked => simp [hch] at h
          | ok v1 q1 st1 =>
            simp only [hch, bindP_ok] at h
            have h1 := ihP pos stack v1 q1 st1 hch
            have h2 := ihB q1 endIdx (st1 ++ [v1]) (opc + 1) v q st h
            omega
      · rw [if_neg hlt] at h
        simp only [Option.some.injEq, P2Res.ok.injEq] at h
        obtain ⟨-, hq, -⟩ := h
        omega
    · intro pos n stack v q st h
      cases n with
      | zero =>
        rw [p2run_loopCount_zero] at h
        simp only [Option.some.injEq, P2Res.ok.injEq] at h
        obtain ⟨-, hq, -⟩ := h
        omega
      | succ m =>
        rw [p2run_loopCount_succ] at h
        cases hch : p2run data fuel (.packet pos stack) with
        | none => simp [hch] at h
        | some x =>
          cases x with
          | err e => simp [hch] at h
          | panicked => simp [hch] at h
          | ok v1 q1 st1 =>
            simp only [hch, bindP_ok] at h
            have h1 := ihP pos stack v1 q1 st1 hch
            have h2 := ihC q1 m (st1 ++ [v1]) v q st h
            omega

theorem p2run_mono (data : List Nat) :
    ∀ fuel fuel' c x, fuel ≤ fuel' → p2run data fuel c = some x →
      p2run data fuel' c = some x := by
  intro fuel
  induction fuel with
  | zero => intro fuel' c x _ h; simp [p2run] at h
  | succ fuel ih =>
    intro fuel' c x hle h
    obtain ⟨f2, rfl⟩ : ∃ f2, fuel' = f2 + 1 := ⟨fuel' - 1, by omega⟩
    have hf : fuel ≤ f2 := by omega
    cases c with
    | packet pos stack =>
      rw [p2run_packet] at h ⊢
      cases h3 : read_bits data pos 3 with
      | error e => simp only [h3, liftP_error] at h ⊢; exact h
      | ok p =>
        obtain ⟨ver, pos1⟩ := p
        simp only [h3, liftP_ok] at h ⊢
        cases h4 : read_bits data pos1 3 with
        | error e => simp only [h4, liftP_error] at h ⊢; exact h
        | ok p =>
          obtain ⟨tid, pos2⟩ := p
          simp only [h4, liftP_ok] at h ⊢
          by_cases ht : tid = TYPE_ID_LITERAL
          · rw [if_pos ht] at h ⊢; exact h
          · rw [if_neg ht] at h ⊢
            cases h5 : read_bits data pos2 1 with
            | error e => simp only [h5, liftP_error] at h ⊢; exact h
            | ok p =>
              obtain ⟨ltid, pos3⟩ := p
              simp only [h5, liftP_ok] at h ⊢
              by_cases hltid : ltid = LENGTH_TYPE_ID_BIT_COUNT
              · rw [if_pos hltid] at h ⊢
                cases h6 : read_bits data pos3 15 with
                | error e => simp only [h6, liftP_error] at h ⊢; exact h
                | ok p =>
                  obtain ⟨tbl, pos4⟩ := p
                  simp only [h6, liftP_ok] at h ⊢
                  cases hch : p2run data fuel (.loopBits pos4 (pos4 + tbl) stack 0) with
                  | none => rw [hch] at h; simp at h
                  | some y =>
                    rw [ih f2 _ y hf hch]
                    rw [hch] at h
                    exact h
              · rw [if_neg hltid] at h ⊢
                cases h6 : read_bits data pos3 11 with
                | error e => simp only [h6, liftP_error] at h ⊢; exact h
                | ok p =>
                  obtain ⟨cnt, pos4⟩ := p
                  simp only [h6, liftP_ok] at h ⊢
                  cases hch : p2run data fuel (.loopCount pos4 cnt stack) with
                  | none => rw [hch] at h; simp at h
                  | some y =>
                    rw [ih f2 _ y hf hch]
                    rw [hch] at h
                    exact h
    | loopBits pos endIdx stack opc =>
      rw [p2run_loopBits] at h ⊢
      by_cases hlt : pos < endIdx
      · rw [if_pos hlt] at h ⊢
        cases hch : p2run data fuel (.packet pos stack) with
        | none => rw [hch] at h; simp at h
        | some y =>
          rw [ih f2 _ y hf hch]
          rw [hch] at h
          cases y with
          | err e => exact h
          | panicked => exact h
          | ok v1 q1 st1 =>
            simp only [bindP_ok] at h ⊢
            exact ih f2 _ x hf h
      · rw [if_neg hlt] at h ⊢; exact h
    | loopCount pos n stack =>
      cases n with
      | zero => rw [p2run_loopCount_zero] at h ⊢; exact h
      | succ m =>
        rw [p2run_loopCount_succ] at h ⊢
        cases hch : p2run data fuel (.packet pos stack) with
        | none => rw [hch] at h; simp at h
        | some y =>
          rw [ih f2 _ y hf hch]
          rw [hch] at h
          cases y with
          | err e => exact h
          | panicked => exact h
          | ok v1 q1 st1 =>
            simp only [bindP_ok] at h ⊢
            exact ih f2 _ x hf h

theorem p2run_suff (data : List Nat) :
    ∀ fuel,
      (∀ pos stack, 2 * (8 * data.length + 1 - pos) < fuel →
        p2run data fuel (.packet pos stack) ≠ none) ∧
      (∀ pos endIdx stack opc, 2 * (8 * data.length + 1 - pos) + 1 < fuel →
        p2run data fuel (.loopBits pos endIdx stack opc) ≠ none) ∧
      (∀ pos n stack, 2 * (8 * data.length + 1 - pos) + 1 < fuel →
        p2run data fuel (.loopCount pos n stack) ≠ none) := by
  intro fuel
  induction fuel with
  | zero =>
    exact ⟨fun pos stack h => absurd h (by omega),
      fun pos endIdx stack opc h => absurd h (by omega),
      fun pos n stack h => absurd h (by omega)⟩
  | succ fuel ih =>
    obtain ⟨ihP, ihB, ihC⟩ := ih
    refine ⟨?_, ?_, ?_⟩
    · intro pos stack hmu
      rw [p2run_packet]
      cases h3 : read_bits data pos 3 with
      | error e => simp
      | ok p =>
        obtain ⟨ver, pos1⟩ := p
        obtain ⟨hq1, hb1, -⟩ := read_bits_ok data pos 3 ver pos1 h3
        simp only [liftP_ok]
        cases h4 : read_bits data pos1 3 with
        | error e => simp
        | ok p =>
          obtain ⟨tid, pos2⟩ := p
          obtain ⟨hq2, hb2, -⟩ := read_bits_ok data pos1 3 tid pos2 h4
          simp only [liftP_ok]
          by_cases ht : tid = TYPE_ID_LITERAL
          · rw [if_pos ht]
            cases hlit : read_compressed_literal data pos2 with
            | error e => simp
            | ok p => obtain ⟨lit, pos3⟩ := p; simp
          · rw [if_neg ht]
            cases h5 : read_bits data pos2 1 with
            | error e => simp
            | ok p =>
              obtain ⟨ltid, pos3⟩ := p
              obtain ⟨hq3, hb3, -⟩ := read_bits_ok data pos2 1 ltid pos3 h5
              simp only [liftP_ok]
              by_cases hltid : ltid = LENGTH_TYPE_ID_BIT_COUNT
              · rw [if_pos hltid]
                cases h6 : read_bits data pos3 15 with
                | error e => simp
                | ok p =>
                  obtain ⟨tbl, pos4⟩ := p
                  obtain ⟨hq4, hb4, -⟩ := read_bits_ok data pos3 15 tbl pos4 h6
                  simp only [liftP_ok]
                  cases hch : p2run data fuel (.loopBits pos4 (pos4 + tbl) stack 0) with
                  | none => exact absurd hch (ihB pos4 (pos4 + tbl) stack 0 (by omega))
                  | some x => cases x <;> simp [hch]
              · rw [if_neg hltid]
                cases h6 : read_bits data pos3 11 with
                | error e => simp
                | ok p =>
                  obtain ⟨cnt, pos4⟩ := p
                  obtain ⟨hq4, hb4, -⟩ := read_bits_ok data pos3 11 cnt pos4 h6
                  simp only [liftP_ok]
                  cases hch : p2run data fuel (.loopCount pos4 cnt stack) with
                  | none => exact absurd hch (ihC pos4 cnt stack (by omega))
                  | some x => cases x <;> simp [hch]
    · intro pos endIdx stack opc hmu
      rw [p2run_loopBits]
      by_cases hlt : pos < endIdx
      · rw [if_pos hlt]
        cases hch : p2run data fuel (.packet pos stack) with
        | none => exact absurd hch (ihP pos stack (by omega))
        | some x =>
          cases x with
          | err e => simp
          | panicked => simp
          | ok v1 q1 st1 =>
            simp only [bindP_ok]
            have hpr := (p2run_progress data fuel).1 pos stack v1 q1 st1 hch
            exact ihB q1 endIdx (st1 ++ [v1]) (opc + 1) (by omega)
      · rw [if_neg hlt]; simp
    · intro pos n stack hmu
      cases n with
      | zero => rw [p2run_loopCount_zero]; simp
      | succ m =>
        rw [p2run_loopCount_succ]
        cases hch : p2run data fuel (.packet pos stack) with
        | none => exact absurd hch (ihP pos stack (by omega))
        | some x =>
          cases x with
          | err e => simp
          | panicked => simp
          | ok v1 q1 st1 =>
            simp only [bindP_ok]
            have hpr := (p2run_progress data fuel).1 pos stack v1 q1 st1 hch
            exact ihC q1 m (st1 ++ [v1]) (by omega)

theorem p2run_append (data ext : List Nat) :
    ∀ fuel c v q st, p2run data fuel c = some (.ok v q st) →
      p2run (data ++ ext) fuel c = some (.ok v q st) := by
  intro fuel
  induction fuel with
  | zero => intro c v q st h; simp [p2run] at h
  | succ fuel ih =>
    intro c v q st h
    cases c with
    | packet pos stack =>
      rw [p2run_packet] at h ⊢
      cases h3 : read_bits data pos 3 with
      | error e => simp [h3] at h
      | ok p =>
        obtain ⟨ver, pos1⟩ := p
        simp only [h3, liftP_ok] at h
        simp only [read_bits_append data ext pos 3 ver pos1 h3, liftP_ok]
        cases h4 : read_bits data pos1 3 with
        | error e => simp [h4] at h
        | ok p =>
          obtain ⟨tid, pos2⟩ := p
          simp only [h4, liftP_ok] at h
          simp only [read_bits_append data ext pos1 3 tid pos2 h4, liftP_ok]
          by_cases ht : tid = TYPE_ID_LITERAL
          · rw [if_pos ht] at h ⊢
            cases hlit : read_compressed_literal data pos2 with
            | error e => simp [hlit] at h
            | ok p =>
              obtain ⟨lit, pos3⟩ := p
              simp only [hlit, liftP_ok] at h
              simp only [read_compressed_literal_append data ext pos2 lit pos3 hlit, liftP_ok]
              exact h
          · rw [if_neg ht] at h ⊢
            cases h5 : read_bits data pos2 1 with
            | error e => simp [h5] at h
            | ok p =>
              obtain ⟨ltid, pos3⟩ := p
              simp only [h5, liftP_ok] at h
              simp only [read_bits_append data ext pos2 1 ltid pos3 h5, liftP_ok]
              by_cases hltid : ltid = LENGTH_TYPE_ID_BIT_COUNT
              · rw [if_pos hltid] at h ⊢
                cases h6 : read_bits data pos3 15 with
                | error e => simp [h6] at h
                | ok p =>
                  obtain ⟨tbl, pos4⟩ := p
                  simp only [h6, liftP_ok] at h
                  simp only [read_bits_append data ext pos3 15 tbl pos4 h6, liftP_ok]
                  cases hch : p2run data fuel (.loopBits pos4 (pos4 + tbl) stack 0) with
                  | none => simp [hch] at h
                  | some x =>
                    cases x with
                    | err e => simp [hch] at h
                    | panicked => simp [hch] at h
                    | ok a q5 st5 =>
                      simp only [hch, bindP_ok] at h
                      rw [ih _ a q5 st5 hch]
                      simp only [bindP_ok]
                      exact h
              · rw [if_neg hltid] at h ⊢
                cases h6 : read_bits data pos3 11 with
                | error e => simp [h6] at h
                | ok p =>
                  obtain ⟨cnt, pos4⟩ := p
                  simp only [h6, liftP_ok] at h
                  simp only [read_bits_append data ext pos3 11 cnt pos4 h6, liftP_ok]
                  cases hch : p2run data fuel (.loopCount pos4 cnt stack) with
                  | none => simp [hch] at h
                  | some x =>
                    cases x with
                    | err e => simp [hch] at h
                    | panicked => simp [hch] at h
                    | ok a q5 st5 =>
                      simp only [hch, bindP_ok] at h
                      rw [ih _ a q5 st5 hch]
                      simp only [bindP_ok]
                      exact h
    | loopBits pos endIdx stack opc =>
      rw [p2run_loopBits] at h ⊢
      by_cases hlt : pos < endIdx
      · rw [if_pos hlt] at h ⊢
        cases hch : p2run data fuel (.packet pos stack) with
        | none => simp [hch] at h
        | some x =>
          cases x with
          | err e => simp [hch] at h
          | panicked => simp [hch] at h
          | ok v1 q1 st1 =>
            simp only [hch, bindP_ok] at h
            rw [ih _ v1 q1 st1 hch]
            simp only [bindP_ok]
            exact ih _ v q st h
      · rw [if_neg hlt] at h ⊢; exact h
    | loopCount pos n stack =>
      cases n with
      | zero => rw [p2run_loopCount_zero] at h ⊢; exact h
      | succ m =>
        rw [p2run_loopCount_succ] at h ⊢
        cases hch : p2run data fuel (.packet pos stack) with
        | none => simp [hch] at h
        | some x =>
          cases x with
          | err e => simp [hch] at h
          | panicked => simp [hch] at h
          | ok v1 q1 st1 =>
            simp only [hch, bindP_ok] at h
            rw [ih _ v1 q1 st1 hch]
            simp only [bindP_ok]
            exact ih _ v q st h

/-! ## Refinement of the part2 decoder against the evaluate specification -/

theorem p2run_eq_specEval (data : List Nat) :
    ∀ fuel,
      (∀ pos stack, p2run data fuel (.packet pos stack)
          = evLiftP stack (specEval data fuel (.packet pos))) ∧
      (∀ pos endIdx stack opc, p2run data fuel (.loopBits pos endIdx stack opc)
          = evLiftB stack opc (specEval data fuel (.loopBits pos endIdx))) ∧
      (∀ pos n stack, p2run data fuel (.loopCount pos n stack)
          = evLiftC stack (specEval data fuel (.loopCount pos n))) := by
  intro fuel
  induction fuel with
  | zero =>
    exact ⟨fun pos stack => rfl, fun pos endIdx stack opc => rfl, fun pos n stack => rfl⟩
  | succ fuel ih =>
    obtain ⟨ihP, ihB, ihC⟩ := ih
    refine ⟨?_, ?_, ?_⟩
    · intro pos stack
      rw [p2run_packet, specEval_packet]
      cases h3 : read_bits data pos 3 with
      | error e => simp
      | ok p =>
        obtain ⟨ver, pos1⟩ := p
        simp only [liftP_ok, liftR_ok]
        cases h4 : read_bits data pos1 3 with
        | error e => simp
        | ok p =>
          obtain ⟨tid, pos2⟩ := p
          simp only [liftP_ok, liftR_ok]
          by_cases ht : tid = TYPE_ID_LITERAL
          · rw [if_pos ht, if_pos ht]
            cases hlit : read_compressed_literal data pos2 with
            | error e => simp
            | ok p =>
              obtain ⟨lit, pos3⟩ := p
              simp
          · rw [if_neg ht, if_neg ht]
            cases h5 : read_bits data pos2 1 with
            | error e => simp
            | ok p =>
              obtain ⟨ltid, pos3⟩ := p
              simp only [liftP_ok, liftR_ok]
              by_cases hltid : ltid = LENGTH_TYPE_ID_BIT_COUNT
              · rw [if_pos hltid, if_pos hltid]
                cases h6 : read_bits data pos3 15 with
                | error e => simp
                | ok p =>
                  obtain ⟨tbl, pos4⟩ := p
                  simp only [liftP_ok, liftR_ok]
                  rw [ihB pos4 (pos4 + tbl) stack 0]
                  cases hs : specEval data fuel (.loopBits pos4 (pos4 + tbl)) with
                  | none => simp
                  | some y =>
                    cases y with
                    | err e => simp
                    | panicked => simp
                    | ok cs r =>
                      simp only [evLiftB_ok, bindP_ok, bindR_ok, Nat.zero_add]
                      exact p2finish_agg tid cs r stack
              · rw [if_neg hltid, if_neg hltid]
                cases h6 : read_bits data pos3 11 with
                | error e => simp
                | ok p =>
                  obtain ⟨cnt, pos4⟩ := p
                  simp only [liftP_ok, liftR_ok]
                  rw [ihC pos4 cnt stack]
                  cases hs : specEval data fuel (.loopCount pos4 cnt) with
                  | none => simp
                  | some y =>
                    cases y with
                    | err e => simp
                    | panicked => simp
                    | ok cs r =>
                      simp only [evLiftC_ok, bindP_ok, bindR_ok]
                      have hlen := specEval_loopCount_length data fuel pos4 cnt cs r hs
                      rw [← hlen]
                      exact p2finish_agg tid cs r stack
    · intro pos endIdx stack opc
      rw [p2run_loopBits, specEval_loopBits]
      by_cases hlt : pos < endIdx
      · rw [if_pos hlt, if_pos hlt]
        rw [ihP pos stack]
        cases hs : specEval data fuel (.packet pos) with
        | none => simp
        | some y =>
          cases y with
          | err e => simp
          | panicked => simp
          | ok vs q1 =>
            obtain ⟨v1, rfl⟩ := specEval_packet_shape data fuel pos vs q1 hs
            simp only [evLiftP_ok, bindP_ok, bindR_ok, List.headD_cons]
            rw [ihB q1 endIdx (stack ++ [v1]) (opc + 1)]
            cases hs2 : specEval data fuel (.loopBits q1 endIdx) with
            | none => simp
            | some y2 =>
              cases y2 with
              | err e => simp
              | panicked => simp
              | ok cs r =>
                simp only [evLiftB_ok, bindR_ok, Option.some.injEq, P2Res.ok.injEq,
                  List.singleton_append, List.length_cons, List.append_assoc,
                  List.cons_append, List.nil_append]
                refine ⟨by omega, trivial, trivial⟩
      · rw [if_neg hlt, if_neg hlt]
        simp
    · intro pos n stack
      cases n with
      | zero =>
        rw [p2run_loopCount_zero, specEval_loopCount_zero]
        simp
      | succ m =>
        rw [p2run_loopCount_succ, specEval_loopCount_succ]
        rw [ihP pos stack]
        cases hs : specEval data fuel (.packet pos) with
        | none => simp
        | some y =>
          cases y with
          | err e => simp
          | panicked => simp
          | ok vs q1 =>
            obtain ⟨v1, rfl⟩ := specEval_packet_shape data fuel pos vs q1 hs
            simp only [evLiftP_ok, bindP_ok, bindR_ok, List.headD_cons]
            rw [ihC q1 m (stack ++ [v1])]
            cases hs2 : specEval data fuel (.loopCount q1 m) with
            | none => simp
            | some y2 =>
              cases y2 with
              | err e => simp
              | panicked => simp
              | ok cs r =>
                simp only [evLiftC_ok, bindR_ok, Option.some.injEq, P2Res.ok.injEq,
                  List.singleton_append, List.append_assoc, List.cons_append,
                  List.nil_append]

/-! ## Claim theorems -/

/-- Claim C4: `read_bits n` fails with `InvalidBitCount n` when `n > 16`; for `n ≤ 16` it
fails exactly when `position + n > 8 * data.length`, and then with `Eof`; a read that
exactly consumes the last available bit (`position + n = 8 * data.length`) succeeds and
advances the position by `n`.  Errors carry no new position in the embedding: the caller
continues with its unchanged cursor, mirroring the Rust early returns that fire before
`self.position` is mutated. -/
theorem c4_read_bits_bounds (data : List Nat) (pos n : Nat) :
    (16 < n → read_bits data pos n = .error (.InvalidBitCount n)) ∧
    (n ≤ 16 → 8 * data.length < pos + n → read_bits data pos n = .error .Eof) ∧
    (n ≤ 16 → pos + n ≤ 8 * data.length → ∃ v, read_bits data pos n = .ok (v, pos + n)) ∧
    (∀ e, read_bits data pos n = .error e →
      (16 < n ∧ e = .InvalidBitCount n) ∨ (8 * data.length < pos + n ∧ e = .Eof)) := by
  refine ⟨?_, ?_, ?_, ?_⟩
  · intro h
    unfold read_bits
    rw [if_pos h]
  · intro h16 hover
    exact read_bits_eof data pos n h16 hover
  · intro h16 hle
    exact ⟨specBits data pos n, read_bits_spec data pos n h16 hle⟩
  · intro e he
    unfold read_bits at he
    by_cases h1 : n > 16
    · rw [if_pos h1] at he
      simp only [Except.error.injEq] at he
      exact Or.inl ⟨h1, he.symm⟩
    · rw [if_neg h1] at he
      by_cases h2 : pos + n > 8 * data.length
      · rw [if_pos h2] at he
        simp only [Except.error.injEq] at he
        exact Or.inr ⟨h2, he.symm⟩
      · rw [if_neg h2] at he
        simp at he

theorem c4_read_bits_bounds_witness :
    read_bits [210] 0 17 = .error (.InvalidBitCount 17) ∧
    read_bits [210] 4 5 = .error .Eof ∧
    (∃ v, read_bits [210] 0 8 = .ok (v, 0 + 8)) :=
  ⟨(c4_read_bits_bounds [210] 0 17).1 (by omega),
   (c4_read_bits_bounds [210] 4 5).2.1 (by omega) (by simp),
   (c4_read_bits_bounds [210] 0 8).2.2.1 (by omega) (by simp)⟩

/-- Claim C5: for every `n` with `1 ≤ n ≤ 16` and every cursor with
`position + n ≤ 8 * data.length`, `read_bits` succeeds, returns the unsigned integer
whose binary digits are the `n` buffer bits starting at the current offset taken
most-significant-bit first (`specBits`, built from the MSB-first per-byte `bitAt`,
spanning byte boundaries), and advances the position by exactly `n`. -/
theorem c5_read_bits_value (data : List Nat) (pos n : Nat) (h1 : 1 ≤ n) (h16 : n ≤ 16)
    (hle : pos + n ≤ 8 * data.length) :
    read_bits data pos n = .ok (specBits data pos n, pos + n) :=
  read_bits_spec data pos n h16 hle

theorem c5_read_bits_value_witness :
    read_bits [210, 254, 40] 4 10 = .ok (specBits [210, 254, 40] 4 10, 4 + 10) ∧
    specBits [210, 254, 40] 4 10 = 191 :=
  ⟨c5_read_bits_value [210, 254, 40] 4 10 (by omega) (by omega) (by simp), by decide⟩

/-- Claim C3: `decode_version_sum` computes, for every packet, the sum of the packet's
own 3-bit version field plus the version sums of all its children (a literal contributes
only its own version): the source decoder `p1run` coincides with the specification
traversal `specVS`, whose operator case is literally `version` plus the sum of the
children's version sums.  On the three concrete buffers it returns `Ok 6`, `Ok 9` and
`Ok 14`. -/
theorem c3_version_sum (data : List Nat) :
    (∀ fuel pos, p1run data fuel (.packet pos) = vsLiftP (specVS data fuel (.packet pos))) ∧
    part1 [210, 254, 40] = .ok 6 ∧
    part1 [56, 0, 111, 69, 41, 18, 0] = .ok 9 ∧
    part1 [238, 0, 212, 12, 130, 48, 96] = .ok 14 :=
  ⟨fun fuel pos => (p1run_eq_specVS data fuel).1 pos, by rfl, by rfl, by rfl⟩

/-- Claim C2: `decode_evaluate` returns, for a literal packet, its literal value, and for
an operator packet, the aggregation of its children's already-evaluated values taken in
decode order: the source decoder `p2run` coincides with the specification traversal
`specEval`, whose operator case applies `specAggRes` (type 0 sum, 1 product, 2 min,
3 max, 5 gt, 6 lt, 7 eq, the comparisons over exactly the first two operands yielding
1 or 0) to the children's values in decode order.  On the three concrete buffers it
returns `Ok 3`, `Ok 54` and `Ok 1`. -/
theorem c2_evaluate (data : List Nat) :
    (∀ fuel pos stack, p2run data fuel (.packet pos stack)
        = evLiftP stack (specEval data fuel (.packet pos))) ∧
    part2 [194, 0, 180, 10, 130] = some (.ok 3) ∧
    part2 [4, 0, 90, 195, 56, 144] = some (.ok 54) ∧
    part2 [156, 1, 65, 8, 2, 80, 50, 15, 24, 2, 16, 74, 8] = some (.ok 1) :=
  ⟨fun fuel pos stack => (p2run_eq_specEval data fuel).1 pos stack, by rfl, by rfl, by rfl⟩

/-- Claim C10: every `evaluate` call that returns successfully leaves the operand stack
exactly as it was on entry — the operands pushed for the packet's children are all popped
before the call returns, so a packet's evaluation never disturbs operands pushed by
enclosing packets. -/
theorem c10_stack_balance (data : List Nat) (fuel pos : Nat) (stack : List Nat)
    (v q : Nat) (st : List Nat)
    (h : p2run data fuel (.packet pos stack) = some (.ok v q st)) : st = stack := by
  rw [(p2run_eq_specEval data fuel).1 pos stack] at h
  cases hs : specEval data fuel (.packet pos) with
  | none => rw [hs] at h; simp at h
  | some y =>
    rw [hs] at h
    cases y with
    | err e => simp at h
    | panicked => simp at h
    | ok vs q1 =>
      simp only [evLiftP_ok, Option.some.injEq, P2Res.ok.injEq] at h
      exact h.2.2.symm

theorem c10_stack_balance_witness :
    p2run [194, 0, 180, 10, 130] (decodeFuel [194, 0, 180, 10, 130]) (.packet 0 [5])
      = some (.ok 3 40 [5]) ∧
    [5] = ([5] : List Nat) :=
  ⟨by rfl,
   c10_stack_balance [194, 0, 180, 10, 130] (decodeFuel [194, 0, 180, 10, 130]) 0 [5]
     3 40 [5] (by rfl)⟩

/-- Claim C9: both decoders terminate on every finite byte buffer, well-formed or not:
the fueled runs with the bound `decodeFuel data` never exhaust their fuel (each recursive
step either consumes a strictly positive number of bits of the finite buffer or stops),
and every larger fuel yields the same result, so the fuel is an artifact of the embedding
and not a hidden timeout. -/
theorem c9_terminates (data : List Nat) (pos : Nat) (stack : List Nat) (fuel : Nat)
    (h : decodeFuel data ≤ fuel) :
    p1run data fuel (.packet pos) = p1run data (decodeFuel data) (.packet pos) ∧
    p1run data (decodeFuel data) (.packet pos) ≠ none ∧
    p2run data fuel (.packet pos stack) = p2run data (decodeFuel data) (.packet pos stack) ∧
    p2run data (decodeFuel data) (.packet pos stack) ≠ none := by
  have h1 : 2 * (8 * data.length + 1 - pos) < decodeFuel data := by
    unfold decodeFuel
    omega
  have hn1 := (p1run_suff data (decodeFuel data)).1 pos h1
  have hn2 := (p2run_suff data (decodeFuel data)).1 pos stack h1
  refine ⟨?_, hn1, ?_, hn2⟩
  · cases hx : p1run data (decodeFuel data) (.packet pos) with
    | none => exact absurd hx hn1
    | some r => exact p1run_mono data (decodeFuel data) fuel (.packet pos) r h hx
  · cases hx : p2run data (decodeFuel data) (.packet pos stack) with
    | none => exact absurd hx hn2
    | some r => exact p2run_mono data (decodeFuel data) fuel (.packet pos stack) r h hx

theorem c9_terminates_witness :
    p1run [0] 1000 (.packet 0) = p1run [0] (decodeFuel [0]) (.packet 0) ∧
    p1run [0] (decodeFuel [0]) (.packet 0) ≠ none ∧
    p2run [0] 1000 (.packet 0 []) = p2run [0] (decodeFuel [0]) (.packet 0 []) ∧
    p2run [0] (decodeFuel [0]) (.packet 0 []) ≠ none :=
  c9_terminates [0] 0 [] 1000 (by norm_num [decodeFuel])

/-- Claim C6: for every byte buffer on which a decode succeeds — i.e. the buffer begins
with one complete well-formed root packet — appending arbitrary trailing padding bytes
changes nothing: both decoders still succeed (in particular never return `EndOfStream`),
consume exactly the bits of the root packet (the end position `q` is unchanged), and
return the same results as on the unpadded buffer. -/
theorem c6_padding (data ext : List Nat) :
    (∀ v q, p1run data (decodeFuel data) (.packet 0) = some (.ok (v, q)) →
      p1run (data ++ ext) (decodeFuel (data ++ ext)) (.packet 0) = some (.ok (v, q)) ∧
      part1 data = .ok v ∧ part1 (data ++ ext) = .ok v) ∧
    (∀ v q st, p2run data (decodeFuel data) (.packet 0 []) = some (.ok v q st) →
      p2run (data ++ ext) (decodeFuel (data ++ ext)) (.packet 0 []) = some (.ok v q st) ∧
      part2 data = some (.ok v) ∧ part2 (data ++ ext) = some (.ok v)) := by
  have hfle : decodeFuel data ≤ decodeFuel (data ++ ext) := by
    unfold decodeFuel
    rw [List.length_append]
    omega
  constructor
  · intro v q h
    have hext := p1run_append data ext (decodeFuel data) (.packet 0) v q h
    have hext2 := p1run_mono (data ++ ext) (decodeFuel data) (decodeFuel (data ++ ext))
      (.packet 0) _ hfle hext
    refine ⟨hext2, ?_, ?_⟩
    · unfold part1
      rw [h]
    · unfold part1
      rw [hext2]
  · intro v q st h
    have hext := p2run_append data ext (decodeFuel data) (.packet 0 []) v q st h
    have hext2 := p2run_mono (data ++ ext) (decodeFuel data) (decodeFuel (data ++ ext))
      (.packet 0 []) _ hfle hext
    refine ⟨hext2, ?_, ?_⟩
    · unfold part2
      rw [h]
    · unfold part2
      rw [hext2]

theorem c6_padding_witness :
    part1 ([210, 254, 40] ++ [255, 171]) = .ok 6 ∧
    part2 ([210, 254, 40] ++ [255, 171]) = some (.ok 2021) :=
  ⟨((c6_padding [210, 254, 40] [255, 171]).1 6 21 (by rfl)).2.2,
   ((c6_padding [210, 254, 40] [255, 171]).2 2021 21 [] (by rfl)).2.2⟩

/-- Claim C8: in the aggregation step of `evaluate`, a well-formed 2-operand comparison
packet with operand values `a` then `b` (in decode order, on top of the stack) yields:
greater-than 1 iff `a > b`, less-than 1 iff `a < b`, equal-to 1 iff `a = b`; decoding
with the operands swapped maps the greater-than outcome to the original less-than outcome
and conversely, and preserves the equal-to outcome.  Concretely, the greater-than packet
over literals (2, 1) evaluates to 1 and the same packet over (1, 2) evaluates to 0. -/
theorem c8_comparison_swap (a b q : Nat) (stack : List Nat) :
    p2finish TYPE_ID_GT 2 q (stack ++ [a, b]) = P2Res.ok (if a > b then 1 else 0) q stack ∧
    p2finish TYPE_ID_LT 2 q (stack ++ [a, b]) = P2Res.ok (if a < b then 1 else 0) q stack ∧
    p2finish TYPE_ID_EQ 2 q (stack ++ [a, b]) = P2Res.ok (if a = b then 1 else 0) q stack ∧
    p2finish TYPE_ID_GT 2 q (stack ++ [b, a]) = p2finish TYPE_ID_LT 2 q (stack ++ [a, b]) ∧
    p2finish TYPE_ID_LT 2 q (stack ++ [b, a]) = p2finish TYPE_ID_GT 2 q (stack ++ [a, b]) ∧
    p2finish TYPE_ID_EQ 2 q (stack ++ [b, a]) = p2finish TYPE_ID_EQ 2 q (stack ++ [a, b]) ∧
    part2 [22, 0, 132, 16, 129] = some (.ok 1) ∧
    part2 [22, 0, 132, 8, 130] = some (.ok 0) := by
  have key : ∀ (t x y : Nat), t = TYPE_ID_GT ∨ t = TYPE_ID_LT ∨ t = TYPE_ID_EQ →
      ∀ r, specAggRes t [x, y] q = .ok [r] q →
      p2finish t 2 q (stack ++ [x, y]) = P2Res.ok r q stack := by
    intro t x y ht r hagg
    have h := p2finish_agg t [x, y] q stack
    rw [hagg] at h
    simp only [evLiftP_ok, List.headD_cons, Option.some.injEq] at h
    exact h
  have hgt : ∀ x y : Nat, p2finish TYPE_ID_GT 2 q (stack ++ [x, y])
      = P2Res.ok (if x > y then 1 else 0) q stack := by
    intro x y
    refine key TYPE_ID_GT x y (Or.inl rfl) _ ?_
    simp [specAggRes, TYPE_ID_GT, TYPE_ID_SUM, TYPE_ID_PRODUCT, TYPE_ID_MIN, TYPE_ID_MAX]
  have hlt : ∀ x y : Nat, p2finish TYPE_ID_LT 2 q (stack ++ [x, y])
      = P2Res.ok (if x < y then 1 else 0) q stack := by
    intro x y
    refine key TYPE_ID_LT x y (Or.inr (Or.inl rfl)) _ ?_
    simp [specAggRes, TYPE_ID_LT, TYPE_ID_SUM, TYPE_ID_PRODUCT, TYPE_ID_MIN, TYPE_ID_MAX,
      TYPE_ID_GT]
  have heq : ∀ x y : Nat, p2finish TYPE_ID_EQ 2 q (stack ++ [x, y])
      = P2Res.ok (if x = y then 1 else 0) q stack := by
    intro x y
    refine key TYPE_ID_EQ x y (Or.inr (Or.inr rfl)) _ ?_
    simp [specAggRes, TYPE_ID_EQ, TYPE_ID_SUM, TYPE_ID_PRODUCT, TYPE_ID_MIN, TYPE_ID_MAX,
      TYPE_ID_GT, TYPE_ID_LT]
  refine ⟨hgt a b, hlt a b, heq a b, ?_, ?_, ?_, by rfl, by rfl⟩
  · rw [hgt b a, hlt a b]
  · rw [hlt b a, hgt a b]
  · rw [heq b a, heq a b]
    congr 1
    simp [eq_comm]

/-- Claim C7 counterexample: a buffer with exactly 5 zero bits remaining before the end
(buffer `[0]`, cursor at bit 3) is a complete final literal group — the continuation flag
is clear — so `read_compressed_literal` returns `Ok (0, 8)`, not the `EndOfStream` the
claim demands for this input. -/
theorem c7_counterexample :
    read_compressed_literal [0] 3 = .ok (0, 8) ∧
    read_compressed_literal [0] 3 ≠ .error .Eof := by
  have h0 : read_compressed_literal [0] 3 = .ok (0, 8) := rfl
  refine ⟨h0, ?_⟩
  rw [h0]
  simp

/-- Claim C7 (amended): `read_compressed_literal` fails only with `Eof`, and it does so
exactly when a 5-bit group read crosses the end of the buffer: immediately when fewer
than 5 bits remain, and mid-sequence because a set continuation flag makes the failure of
the rest of the sequence equivalent to the failure at the next group.  A buffer with only
the five bits `10000` (continuation flag set, no further group) yields `Eof`; a buffer
with only 5 zero bits remaining is a complete literal encoding 0 and succeeds. -/
theorem c7_literal_eof (data : List Nat) (pos : Nat) :
    (∀ e, read_compressed_literal data pos = .error e → e = .Eof) ∧
    (8 * data.length < pos + 5 → read_compressed_literal data pos = .error .Eof) ∧
    (∀ c q, read_bits data pos 5 = .ok (c, q) → c &&& 16 ≠ 0 →
      (read_compressed_literal data pos = .error .Eof ↔
       read_compressed_literal data q = .error .Eof)) ∧
    read_compressed_literal [128] 0 = .error .Eof ∧
    read_compressed_literal [0] 3 = .ok (0, 8) := by
  refine ⟨read_compressed_literal_err data pos, read_compressed_literal_eof data pos,
    ?_, by rfl, by rfl⟩
  intro c q hrb hflag
  obtain ⟨hq, hle, -⟩ := read_bits_ok data pos 5 c q hrb
  have hstep : read_compressed_literal data pos
      = (readLiteralF data (8 * data.length + 1) q
          (((0 <<< 4) % U64) ||| (c &&& 15))).getD (.error .Eof) := by
    unfold read_compressed_literal litFuel
    have h2 : 8 * data.length + 2 = (8 * data.length + 1) + 1 := rfl
    rw [h2, readLiteralF_succ]
    simp only [hrb]
    rw [if_neg hflag]
  constructor
  · intro hL
    rw [hstep] at hL
    cases hF : readLiteralF data (8 * data.length + 1) q (((0 <<< 4) % U64) ||| (c &&& 15)) with
    | none => exact absurd hF (readLiteralF_suff data (8 * data.length + 1) q _ (by omega))
    | some x =>
      rw [hF] at hL
      simp only [Option.getD_some] at hL
      subst hL
      have hacc := readLiteralF_err_acc data (8 * data.length + 1) q
        (((0 <<< 4) % U64) ||| (c &&& 15)) 0 .Eof hF
      have hmono := readLiteralF_mono data (8 * data.length + 1) (8 * data.length + 2) q 0
        _ (by omega) hacc
      unfold read_compressed_literal litFuel
      rw [hmono]
      rfl
  · intro hR
    unfold read_compressed_literal litFuel at hR
    cases hF : readLiteralF data (8 * data.length + 2) q 0 with
    | none => exact absurd hF (readLiteralF_suff data (8 * data.length + 2) q 0 (by omega))
    | some x =>
      rw [hF] at hR
      simp only [Option.getD_some] at hR
      subst hR
      cases hF1 : readLiteralF data (8 * data.length + 1) q 0 with
      | none => exact absurd hF1 (readLiteralF_suff data (8 * data.length + 1) q 0 (by omega))
      | some y =>
        have hmono := readLiteralF_mono data (8 * data.length + 1) (8 * data.length + 2) q 0
          y (by omega) hF1
        rw [hF] at hmono
        have hy : y = .error .Eof := by
          simpa using hmono.symm
        subst hy
        have hacc := readLiteralF_err_acc data (8 * data.length + 1) q 0
          (((0 <<< 4) % U64) ||| (c &&& 15)) .Eof hF1
        rw [hstep, hacc]
        rfl

theorem c7_literal_eof_witness :
    read_compressed_literal [0] 4 = .error .Eof ∧
    (read_compressed_literal [128] 0 = .error .Eof ↔
     read_compressed_literal [128] 5 = .error .Eof) :=
  ⟨(c7_literal_eof [0] 4).2.1 (by decide),
   (c7_literal_eof [128] 0).2.2.1 16 5 (by rfl) (by decide)⟩

/-- Claim C1 counterexample: on the buffer `[0, 0, 20, 67, 128]` the root operator packet
uses the length-in-bits scheme and declares `total_bit_length = 5` (`read_bits 15` at bit
7 returns 5, so `end_position = 22 + 5 = 27`), but its single child is an 11-bit literal:
the child decode started at bit 22 ends at bit 33, overshooting the declared boundary 27.
Both decoders return `Ok` (version sum 0, evaluated value 7) instead of the decode error
the claim requires. -/
theorem c1_counterexample :
    read_bits [0, 0, 20, 67, 128] 7 15 = .ok (5, 22) ∧
    p1run [0, 0, 20, 67, 128] (decodeFuel [0, 0, 20, 67, 128]) (.packet 22)
      = some (.ok (0, 33)) ∧
    27 < 33 ∧
    part1 [0, 0, 20, 67, 128] = .ok 0 ∧
    part2 [0, 0, 20, 67, 128] = some (.ok 7) :=
  ⟨by rfl, by rfl, by omega, by rfl, by rfl⟩

/-- Claim C1 (amended): the decoders perform no overshoot check for the length-in-bits
scheme.  The child loop exits silently as soon as the cursor position has reached or
passed `end_position`, returning `Ok` — whether the last child ended exactly at the
boundary or overshot it — and a decode error arises only when an underlying bit read
fails.  In particular both decoders return `Ok` on the counterexample buffer whose child
overshoots its declared boundary by 6 bits. -/
theorem c1_no_overshoot_check (data : List Nat) (fuel pos endIdx acc opc : Nat)
    (stack : List Nat) (h : endIdx ≤ pos) :
    p1run data (fuel + 1) (.loopBits pos endIdx acc) = some (.ok (acc, pos)) ∧
    p2run data (fuel + 1) (.loopBits pos endIdx stack opc) = some (.ok opc pos stack) ∧
    part1 [0, 0, 20, 67, 128] = .ok 0 ∧
    part2 [0, 0, 20, 67, 128] = some (.ok 7) := by
  refine ⟨?_, ?_, by rfl, by rfl⟩
  · rw [p1run_loopBits, if_neg (by omega)]
  · rw [p2run_loopBits, if_neg (by omega)]

theorem c1_no_overshoot_check_witness :
    p1run [0, 0, 20, 67, 128] 84 (.loopBits 33 27 0) = some (.ok (0, 33)) ∧
    p2run [0, 0, 20, 67, 128] 84 (.loopBits 33 27 [7] 1) = some (.ok 1 33 [7]) :=
  ⟨(c1_no_overshoot_check [0, 0, 20, 67, 128] 83 33 27 0 1 [7] (by omega)).1,
   (c1_no_overshoot_check [0, 0, 20, 67, 128] 83 33 27 0 1 [7] (by omega)).2.1⟩
